import Mathlib

/-!
Verification development for the content merge engine of the ukmm repository.

The Rust sources are shallowly embedded:

* `roead::aamp` parameter trees (ordered `IndexMap`s from `u32` name hashes to
  typed leaves, objects and nested lists) become ordered association lists
  over `Nat` keys; a recursive `ParameterList` is a mutual inductive with its
  ordered child map `PListMap`.
* `IndexMap` operations keep the crate semantics: `insert` overwrites the
  value of an existing key in place (keeping its position) and appends a
  fresh key at the end; iteration order is the list order; `collect` from an
  iterator folds `insert` over an empty map.
* Byml trees (`roead::byml`) are a mutual inductive `Byml`/`BymlHash` with
  string keys.
* The readers and the unpacker are modelled as pure functions over explicit
  states; external codecs (Zstandard, yaz0, minicbor, rstb) are passed in as
  opaque function parameters, matching the byte-level contract the spec
  assigns them; Rust panics are modelled as error results.
-/

/-- Typed parameter leaf (`roead::aamp::Parameter`).  The concrete variants of
the external crate are irrelevant to the merge algebra; two representative
payloads give the type a non-trivial decidable equality. -/
inductive Parameter where
  | int (v : Int)
  | str (s : String)
deriving DecidableEq, Repr

/-- Lookup of the first binding of a key in an ordered association list
(`IndexMap` lookup). -/
def alGet {κ α : Type} [DecidableEq κ] (m : List (κ × α)) (k : κ) : Option α :=
  match m with
  | [] => none
  | kv :: rest => if kv.1 = k then some kv.2 else alGet rest k

/-- Membership test (`IndexMap::contains_key`). -/
def alContains {κ α : Type} [DecidableEq κ] (m : List (κ × α)) (k : κ) : Bool :=
  (alGet m k).isSome

/-- Replace the value of an existing key in place, keeping its position
(`IndexMap` index assignment). -/
def alSet {κ α : Type} [DecidableEq κ] (m : List (κ × α)) (k : κ) (v : α) : List (κ × α) :=
  match m with
  | [] => []
  | kv :: rest => if kv.1 = k then (k, v) :: rest else kv :: alSet rest k v

/-- Insertion (`IndexMap::insert`): overwrite in place when the key exists,
append at the end otherwise. -/
def alInsert {κ α : Type} [DecidableEq κ] (m : List (κ × α)) (k : κ) (v : α) : List (κ × α) :=
  if alContains m k then alSet m k v else m ++ [(k, v)]

/-- Collecting an iterator of pairs into an `IndexMap`: fold `insert` over the
empty map. -/
def alCollect {κ α : Type} [DecidableEq κ] (l : List (κ × α)) : List (κ × α) :=
  l.foldl (fun m kv => alInsert m kv.1 kv.2) []

/-- Key sequence of an association list, in insertion order. -/
def alKeys {κ α : Type} (m : List (κ × α)) : List κ :=
  m.map Prod.fst

/-- Generic shape of the additive structural diff shared by the parameter
functions in `util/mod.rs`: emit entries of `other` whose key is absent in
`base` unchanged, recurse with `dOp` into entries whose value differs, and
omit equal entries. -/
def genDiff {κ α : Type} [DecidableEq κ] [DecidableEq α] (dOp : α → α → α)
    (base other : List (κ × α)) : List (κ × α) :=
  other.filterMap (fun kv =>
    match alGet base kv.1 with
    | none => some kv
    | some bv => if bv ≠ kv.2 then some (kv.1, dOp bv kv.2) else none)

/-- Generic shape of the overlay merge shared by the parameter functions in
`util/mod.rs`: fold the patch over the base, appending fresh keys and
combining existing ones with `comb`. -/
def genMerge {κ α : Type} [DecidableEq κ] (comb : α → α → α)
    (base diff : List (κ × α)) : List (κ × α) :=
  diff.foldl (fun new kv =>
    match alGet new kv.1 with
    | none => new ++ [kv]
    | some nv => alSet new kv.1 (comb nv kv.2)) base

/-- Parameter object (`roead::aamp::ParameterObject`): ordered map from name
hashes to leaves. -/
abbrev ParameterObject := List (Nat × Parameter)

/-- Embedding of `diff_pobj` (util/mod.rs lines 43-55): keep a pair of
`other` iff its key is absent in `base` or bound to a different value. -/
def diff_pobj (base other : ParameterObject) : ParameterObject :=
  other.filterMap (fun kv =>
    if ¬ alContains base kv.1 ∨ ¬ (alGet base kv.1 = some kv.2) then some kv else none)

/-- Embedding of `merge_pobj` (util/mod.rs lines 85-91): chain base and diff
and collect into a fresh `IndexMap`, so the diff overwrites values of shared
keys while base keys keep their positions. -/
def merge_pobj (base diff : ParameterObject) : ParameterObject :=
  alCollect (base ++ diff)

theorem diff_pobj_eq_genDiff (base other : ParameterObject) :
    diff_pobj base other = genDiff (fun _ v => v) base other := by
  unfold diff_pobj genDiff
  induction other with
  | nil => rfl
  | cons kv rest ih =>
    simp only [List.filterMap_cons]
    rw [show (List.filterMap _ rest : ParameterObject) = _ from ih]
    cases h : alGet base kv.1 with
    | none => simp [alContains, h]
    | some bv =>
      by_cases hv : bv = kv.2 <;> simp [alContains, h, hv]


section AssocLemmas

set_option linter.unusedSectionVars false

variable {κ α : Type} [DecidableEq κ]

theorem alKeys_nil : alKeys ([] : List (κ × α)) = [] := rfl

theorem alKeys_cons (kv : κ × α) (rest : List (κ × α)) :
    alKeys (kv :: rest) = kv.1 :: alKeys rest := rfl

theorem alGet_append (m l : List (κ × α)) (q : κ) :
    alGet (m ++ l) q = match alGet m q with
      | some v => some v
      | none => alGet l q := by
  induction m with
  | nil => simp [alGet]
  | cons kv rest ih =>
    by_cases h : kv.1 = q <;> simp [alGet, h, ih]

theorem alKeys_append (m l : List (κ × α)) :
    alKeys (m ++ l) = alKeys m ++ alKeys l := by
  simp [alKeys]

theorem alKeys_alSet (m : List (κ × α)) (k : κ) (v : α) :
    alKeys (alSet m k v) = alKeys m := by
  induction m with
  | nil => rfl
  | cons kv rest ih =>
    by_cases h : kv.1 = k
    · simp [alSet, h, alKeys_cons]
    · simp only [alSet, if_neg h, alKeys_cons, ih]

theorem alGet_eq_none_iff (m : List (κ × α)) (k : κ) :
    alGet m k = none ↔ k ∉ alKeys m := by
  induction m with
  | nil => simp [alGet, alKeys_nil]
  | cons kv rest ih =>
    by_cases h : kv.1 = k
    · simp [alGet, h, alKeys_cons]
    · have : ¬ k = kv.1 := fun e => h e.symm
      simp [alGet, h, alKeys_cons, ih, this]

theorem alContains_iff_mem (m : List (κ × α)) (k : κ) :
    alContains m k = true ↔ k ∈ alKeys m := by
  rw [alContains, Option.isSome_iff_ne_none, ne_eq, alGet_eq_none_iff, not_not]

theorem alGet_isSome_iff (m : List (κ × α)) (k : κ) :
    (alGet m k).isSome = true ↔ k ∈ alKeys m :=
  alContains_iff_mem m k

theorem alGet_mem (m : List (κ × α)) (k : κ) (v : α) (h : alGet m k = some v) :
    (k, v) ∈ m := by
  induction m with
  | nil => simp [alGet] at h
  | cons kv rest ih =>
    by_cases hk : kv.1 = k
    · obtain ⟨k1, v1⟩ := kv
      simp only at hk
      subst hk
      simp only [alGet, if_true, Option.some.injEq, eq_self_iff_true, if_pos] at h
      rw [show v1 = v from by simpa using h]
      exact List.mem_cons_self _ _
    · simp only [alGet, if_neg hk] at h
      exact List.mem_cons_of_mem _ (ih h)

theorem alGet_alSet_ne (m : List (κ × α)) (k q : κ) (v : α) (h : q ≠ k) :
    alGet (alSet m k v) q = alGet m q := by
  induction m with
  | nil => rfl
  | cons kv rest ih =>
    by_cases hk : kv.1 = k
    · have : ¬ k = q := fun e => h e.symm
      simp [alSet, alGet, hk, this]
    · simp only [alSet, if_neg hk, alGet, ih]

theorem alGet_alSet_self (m : List (κ × α)) (k : κ) (v : α) (h : k ∈ alKeys m) :
    alGet (alSet m k v) k = some v := by
  induction m with
  | nil => simp [alKeys_nil] at h
  | cons kv rest ih =>
    by_cases hk : kv.1 = k
    · simp [alSet, alGet, hk]
    · have hr : k ∈ alKeys rest := by
        rcases (by simpa [alKeys_cons] using h : k = kv.1 ∨ k ∈ alKeys rest) with h1 | h2
        · exact absurd h1.symm hk
        · exact h2
      simp [alSet, alGet, hk, ih hr]

theorem alSet_of_notMem (m : List (κ × α)) (k : κ) (v : α) (h : k ∉ alKeys m) :
    alSet m k v = m := by
  induction m with
  | nil => rfl
  | cons kv rest ih =>
    rw [alKeys_cons, List.mem_cons] at h
    push_neg at h
    have : ¬ kv.1 = k := fun e => h.1 e.symm
    simp [alSet, this, ih h.2]

theorem alKeys_filter (m : List (κ × α)) (p : κ → Bool) :
    alKeys (m.filter (fun kv => p kv.1)) = (alKeys m).filter p := by
  induction m with
  | nil => rfl
  | cons kv rest ih =>
    by_cases h : p kv.1
    · simp only [List.filter_cons, h, if_pos, alKeys_cons, List.filter_cons_of_pos, ih]
    · simp only [List.filter_cons, alKeys_cons]
      rw [if_neg (by simpa using h), if_neg (by simpa using h)]
      exact ih

end AssocLemmas

section GenLemmas

set_option linter.unusedSectionVars false

variable {κ α : Type} [DecidableEq κ]

theorem alContains_eq_decide (m : List (κ × α)) (k : κ) :
    alContains m k = decide (k ∈ alKeys m) := by
  by_cases h : k ∈ alKeys m
  · simp [(alContains_iff_mem m k).2 h, h]
  · have hf : alContains m k = false := by
      by_contra hc
      exact h ((alContains_iff_mem m k).1 (by simpa using hc))
    simp [hf, h]

theorem alContains_alSet (m : List (κ × α)) (k q : κ) (v : α) :
    alContains (alSet m k v) q = alContains m q := by
  rw [alContains_eq_decide, alContains_eq_decide, alKeys_alSet]

theorem alGet_append_single_ne (base : List (κ × α)) (kv : κ × α) (q : κ) (h : kv.1 ≠ q) :
    alGet (base ++ [kv]) q = alGet base q := by
  rw [alGet_append]
  cases hbq : alGet base q <;> simp [alGet, h]

theorem alGet_append_single_self (base : List (κ × α)) (kv : κ × α)
    (h : alGet base kv.1 = none) :
    alGet (base ++ [kv]) kv.1 = some kv.2 := by
  rw [alGet_append, h]
  simp [alGet]

theorem genMerge_nil (comb : α → α → α) (base : List (κ × α)) :
    genMerge comb base [] = base := rfl

theorem genMerge_cons (comb : α → α → α) (base : List (κ × α)) (kv : κ × α)
    (rest : List (κ × α)) :
    genMerge comb base (kv :: rest) =
      genMerge comb
        (match alGet base kv.1 with
          | none => base ++ [kv]
          | some nv => alSet base kv.1 (comb nv kv.2)) rest := rfl

theorem genMerge_alKeys (comb : α → α → α) (base d : List (κ × α))
    (hd : (alKeys d).Nodup) :
    alKeys (genMerge comb base d) =
      alKeys base ++ alKeys (d.filter (fun kv => ! alContains base kv.1)) := by
  induction d generalizing base with
  | nil => simp [genMerge_nil, alKeys_nil]
  | cons kv rest ih =>
    rw [alKeys_cons, List.nodup_cons] at hd
    rw [genMerge_cons]
    cases hb : alGet base kv.1 with
    | some nv =>
      have hcont : alContains base kv.1 = true := by
        simp [alContains, hb]
      simp only [hb]
      rw [ih _ hd.2, alKeys_alSet]
      have hfc : rest.filter (fun kv' => ! alContains (alSet base kv.1 (comb nv kv.2)) kv'.1)
          = rest.filter (fun kv' => ! alContains base kv'.1) := by
        apply List.filter_congr
        intro a _
        rw [alContains_alSet]
      rw [hfc, List.filter_cons_of_neg (by simp [hcont])]
    | none =>
      simp only [hb]
      rw [ih _ hd.2, alKeys_append]
      have hfc : rest.filter (fun kv' => ! alContains (base ++ [kv]) kv'.1)
          = rest.filter (fun kv' => ! alContains base kv'.1) := by
        apply List.filter_congr
        intro a ha
        rw [alContains_eq_decide, alContains_eq_decide, alKeys_append]
        have hne : a.1 ≠ kv.1 := by
          intro e
          exact hd.1 (e ▸ (List.mem_map_of_mem Prod.fst ha))
        simp [alKeys_cons, alKeys_nil, hne]
      rw [hfc, List.filter_cons_of_pos (by simp [alContains, hb])]
      simp [alKeys_cons, alKeys_nil]

theorem genMerge_alGet (comb : α → α → α) (base d : List (κ × α))
    (hd : (alKeys d).Nodup) (q : κ) :
    alGet (genMerge comb base d) q =
      match alGet d q, alGet base q with
      | none, _ => alGet base q
      | some dv, none => some dv
      | some dv, some bv => some (comb bv dv) := by
  induction d generalizing base with
  | nil => simp [genMerge_nil, alGet]
  | cons kv rest ih =>
    rw [alKeys_cons, List.nodup_cons] at hd
    by_cases hq : kv.1 = q
    · subst hq
      have hrq : alGet rest kv.1 = none := (alGet_eq_none_iff rest kv.1).2 hd.1
      cases hb : alGet base kv.1 with
      | some nv =>
        have hmem : kv.1 ∈ alKeys base :=
          (alContains_iff_mem base kv.1).1 (by simp [alContains, hb])
        rw [genMerge_cons]
        simp only [hb]
        rw [ih _ hd.2]
        simp [hrq, alGet_alSet_self _ _ _ hmem, alGet, hb]
      | none =>
        rw [genMerge_cons]
        simp only [hb]
        rw [ih _ hd.2]
        simp [hrq, alGet_append_single_self base kv hb, alGet, hb]
    · have hqn : q ≠ kv.1 := fun e => hq e.symm
      rw [genMerge_cons]
      cases hb : alGet base kv.1 with
      | some nv =>
        simp only [hb]
        rw [ih _ hd.2]
        simp [alGet, hq, alGet_alSet_ne base kv.1 q (comb nv kv.2) hqn]
      | none =>
        simp only [hb]
        rw [ih _ hd.2]
        simp [alGet, hq, alGet_append_single_ne base kv q (fun e => hq e)]

theorem genDiff_nil [DecidableEq α] (dOp : α → α → α) (base : List (κ × α)) :
    genDiff dOp base [] = [] := rfl

theorem genDiff_cons [DecidableEq α] (dOp : α → α → α) (base : List (κ × α))
    (kv : κ × α) (rest : List (κ × α)) :
    genDiff dOp base (kv :: rest) =
      match alGet base kv.1 with
      | none => kv :: genDiff dOp base rest
      | some bv =>
          if bv = kv.2 then genDiff dOp base rest
          else (kv.1, dOp bv kv.2) :: genDiff dOp base rest := by
  unfold genDiff
  rw [List.filterMap_cons]
  cases hb : alGet base kv.1 with
  | none => simp
  | some bv => by_cases hv : bv = kv.2 <;> simp [hv]

theorem genDiff_alKeys_sublist [DecidableEq α] (dOp : α → α → α) (base other : List (κ × α)) :
    (alKeys (genDiff dOp base other)).Sublist (alKeys other) := by
  induction other with
  | nil => simp [genDiff_nil]
  | cons kv rest ih =>
    cases hb : alGet base kv.1 with
    | none =>
      rw [genDiff_cons]
      simp only [hb]
      rw [alKeys_cons, alKeys_cons]
      exact ih.cons₂ kv.1
    | some bv =>
      rw [genDiff_cons]
      simp only [hb]
      by_cases hv : bv = kv.2
      · rw [if_pos hv, alKeys_cons]
        exact ih.cons kv.1
      · rw [if_neg hv, alKeys_cons, alKeys_cons]
        exact ih.cons₂ kv.1

theorem genDiff_alGet [DecidableEq α] (dOp : α → α → α) (base other : List (κ × α))
    (ho : (alKeys other).Nodup) (q : κ) :
    alGet (genDiff dOp base other) q =
      match alGet other q, alGet base q with
      | none, _ => none
      | some ov, none => some ov
      | some ov, some bv => if bv = ov then none else some (dOp bv ov) := by
  induction other with
  | nil => simp [genDiff_nil, alGet]
  | cons kv rest ih =>
    rw [alKeys_cons, List.nodup_cons] at ho
    cases hb : alGet base kv.1 with
    | none =>
      rw [genDiff_cons]
      simp only [hb]
      by_cases hq : kv.1 = q
      · subst hq
        simp [alGet, hb]
      · simp only [alGet, if_neg hq]
        exact ih ho.2
    | some bv =>
      rw [genDiff_cons]
      simp only [hb]
      by_cases hq : kv.1 = q
      · subst hq
        have hrq : alGet rest kv.1 = none := (alGet_eq_none_iff rest kv.1).2 ho.1
        by_cases hv : bv = kv.2
        · rw [if_pos hv, ih ho.2]
          simp [hrq, alGet, hb, hv]
        · rw [if_neg hv]
          simp [alGet, hb, hv]
      · by_cases hv : bv = kv.2
        · rw [if_pos hv, ih ho.2]
          simp only [alGet, if_neg hq]
        · rw [if_neg hv]
          simp only [alGet, if_neg hq]
          exact ih ho.2

theorem genDiff_filter_keys [DecidableEq α] (dOp : α → α → α) (base other : List (κ × α)) :
    alKeys ((genDiff dOp base other).filter (fun kv => ! alContains base kv.1)) =
      alKeys (other.filter (fun kv => ! alContains base kv.1)) := by
  induction other with
  | nil => simp [genDiff_nil]
  | cons kv rest ih =>
    cases hb : alGet base kv.1 with
    | none =>
      rw [genDiff_cons]
      simp only [hb]
      have hcf : (! alContains base kv.1) = true := by simp [alContains, hb]
      simp [List.filter_cons, hcf, alKeys_cons, ih]
    | some bv =>
      rw [genDiff_cons]
      simp only [hb]
      have hcf : ¬ ((! alContains base kv.1) = true) := by simp [alContains, hb]
      by_cases hv : bv = kv.2
      · rw [if_pos hv]
        simp [List.filter_cons, hcf, ih]
      · rw [if_neg hv]
        simp [List.filter_cons, hcf, ih]

end GenLemmas

section ReconLemmas

set_option linter.unusedSectionVars false

variable {κ α : Type} [DecidableEq κ]

theorem alExt (l₁ l₂ : List (κ × α)) (hk : alKeys l₁ = alKeys l₂)
    (hn : (alKeys l₁).Nodup) (hg : ∀ q, alGet l₁ q = alGet l₂ q) : l₁ = l₂ := by
  induction l₁ generalizing l₂ with
  | nil =>
    cases l₂ with
    | nil => rfl
    | cons kv2 rest2 => simp [alKeys_nil, alKeys_cons] at hk
  | cons kv rest ih =>
    cases l₂ with
    | nil => simp [alKeys_nil, alKeys_cons] at hk
    | cons kv2 rest2 =>
      obtain ⟨k1, v1⟩ := kv
      obtain ⟨k2, v2⟩ := kv2
      rw [alKeys_cons, alKeys_cons] at hk
      injection hk with h1 h2
      simp only at h1 h2
      subst h1
      rw [alKeys_cons, List.nodup_cons] at hn
      have hval : v1 = v2 := by
        have hq := hg k1
        simp [alGet] at hq
        exact hq
      subst hval
      have htail : rest = rest2 := by
        apply ih rest2 h2 hn.2
        intro q
        by_cases hq : k1 = q
        · subst hq
          rw [(alGet_eq_none_iff rest k1).2 hn.1, (alGet_eq_none_iff rest2 k1).2 (h2 ▸ hn.1)]
        · have hgq := hg q
          simp only [alGet, if_neg hq] at hgq
          exact hgq
      rw [htail]

theorem foldl_alInsert_append (l : List (κ × α)) (acc : List (κ × α))
    (hl : (alKeys l).Nodup) (hdisj : ∀ k, k ∈ alKeys l → k ∉ alKeys acc) :
    l.foldl (fun m kv => alInsert m kv.1 kv.2) acc = acc ++ l := by
  induction l generalizing acc with
  | nil => simp
  | cons kv rest ih =>
    rw [alKeys_cons, List.nodup_cons] at hl
    have hnotin : kv.1 ∉ alKeys acc :=
      hdisj kv.1 (by rw [alKeys_cons]; exact List.mem_cons_self _ _)
    have hstep : alInsert acc kv.1 kv.2 = acc ++ [kv] := by
      unfold alInsert
      rw [if_neg (by simp [alContains_eq_decide, hnotin])]
    have hdisj2 : ∀ k, k ∈ alKeys rest → k ∉ alKeys (acc ++ [kv]) := by
      intro k hk
      rw [alKeys_append]
      simp only [List.mem_append]
      push_neg
      refine ⟨hdisj k (by rw [alKeys_cons]; exact List.mem_cons_of_mem _ hk), ?_⟩
      intro hc
      rw [show alKeys [kv] = [kv.1] from rfl, List.mem_singleton] at hc
      exact hl.1 (hc ▸ hk)
    rw [List.foldl_cons, hstep, ih (acc ++ [kv]) hl.2 hdisj2]
    simp

theorem alCollect_eq_self (l : List (κ × α)) (hl : (alKeys l).Nodup) :
    alCollect l = l := by
  unfold alCollect
  rw [foldl_alInsert_append l [] hl (by simp [alKeys_nil])]
  simp

theorem alInsert_eq_match (m : List (κ × α)) (k : κ) (v : α) :
    alInsert m k v = match alGet m k with
      | none => m ++ [(k, v)]
      | some _ => alSet m k v := by
  unfold alInsert alContains
  cases alGet m k <;> simp

theorem merge_pobj_eq_genMerge (base d : ParameterObject) (hb : (alKeys base).Nodup) :
    merge_pobj base d = genMerge (fun _ v => v) base d := by
  unfold merge_pobj alCollect
  rw [List.foldl_append,
    show base.foldl (fun m kv => alInsert m kv.1 kv.2) [] = [] ++ base from
      foldl_alInsert_append base [] hb (by simp [alKeys_nil])]
  simp only [List.nil_append]
  unfold genMerge
  congr 1
  funext m kv
  rw [alInsert_eq_match]

theorem nodup_append_filter (A B : List κ) (h : (A ++ B).Nodup) :
    A ++ (A ++ B).filter (fun k => ! decide (k ∈ A)) = A ++ B := by
  rw [List.filter_append]
  have h1 : A.filter (fun k => ! decide (k ∈ A)) = [] := by
    rw [List.filter_eq_nil_iff]
    intro a ha
    simp [ha]
  have hdisj := List.disjoint_of_nodup_append h
  have h2 : B.filter (fun k => ! decide (k ∈ A)) = B := by
    rw [List.filter_eq_self]
    intro a ha
    simp only [Bool.not_eq_true', decide_eq_false_iff_not]
    exact fun hc => hdisj hc ha
  rw [h1, h2, List.nil_append]

theorem genRecon [DecidableEq α] (dOp comb : α → α → α) (base other : List (κ × α))
    (hpre : (alKeys other).take (alKeys base).length = alKeys base)
    (hno : (alKeys other).Nodup)
    (hpoint : ∀ k bv ov, alGet base k = some bv → alGet other k = some ov → bv ≠ ov →
      comb bv (dOp bv ov) = ov) :
    genMerge comb base (genDiff dOp base other) = other := by
  have hdn : (alKeys (genDiff dOp base other)).Nodup :=
    (genDiff_alKeys_sublist dOp base other).nodup hno
  have hkeys : alKeys (genMerge comb base (genDiff dOp base other)) = alKeys other := by
    rw [genMerge_alKeys _ _ _ hdn, genDiff_filter_keys,
      alKeys_filter other (fun k => ! alContains base k)]
    simp only [alContains_eq_decide]
    rw [← hpre]
    have h2 := nodup_append_filter ((alKeys other).take (alKeys base).length)
      ((alKeys other).drop (alKeys base).length)
      (by rw [List.take_append_drop]; exact hno)
    rw [List.take_append_drop] at h2
    exact h2
  apply alExt _ _ hkeys (hkeys ▸ hno)
  intro q
  rw [genMerge_alGet _ _ _ hdn q, genDiff_alGet _ _ _ hno q]
  cases ho : alGet other q with
  | none =>
    cases hb : alGet base q with
    | none => simp
    | some bv =>
      exfalso
      have hqb : q ∈ alKeys base := by
        rw [← alGet_isSome_iff]
        simp [hb]
      have hqo : q ∈ alKeys other := by
        rw [← hpre] at hqb
        exact List.take_subset _ _ hqb
      rw [alGet_eq_none_iff] at ho
      exact ho hqo
  | some ov =>
    cases hb : alGet base q with
    | none => simp
    | some bv =>
      by_cases hv : bv = ov
      · simp [hv]
      · simp [hv, hpoint q bv ov hb ho hv]

end ReconLemmas

mutual
/-- Recursive parameter list (`roead::aamp::ParameterList`): an ordered map of
parameter objects and an ordered map of child parameter lists, both keyed by
`u32` name hashes. -/
inductive ParameterList : Type where
  | mk (objects : List (Nat × ParameterObject)) (lists : PListMap) : ParameterList
deriving DecidableEq
/-- Ordered map from name hashes to child parameter lists
(`roead::aamp::ParameterListMap`), spelled out so the mutual recursion with
`ParameterList` stays structural. -/
inductive PListMap : Type where
  | nil : PListMap
  | cons (k : Nat) (v : ParameterList) (rest : PListMap) : PListMap
deriving DecidableEq
end

/-- Objects component of a parameter list. -/
def ParameterList.objects : ParameterList → List (Nat × ParameterObject)
  | .mk o _ => o

/-- Child-list component of a parameter list. -/
def ParameterList.lists : ParameterList → PListMap
  | .mk _ l => l

/-- Lookup in an ordered child-list map (`IndexMap` lookup). -/
def PListMap.getV : PListMap → Nat → Option ParameterList
  | .nil, _ => none
  | .cons k v rest, q => if k = q then some v else rest.getV q

/-- In-place value replacement in a child-list map (`IndexMap` index
assignment). -/
def PListMap.setV : PListMap → Nat → ParameterList → PListMap
  | .nil, _, _ => .nil
  | .cons k v rest, q, nv => if k = q then .cons q nv rest else .cons k v (rest.setV q nv)

/-- Appending a fresh key at the end of a child-list map (`IndexMap::insert`
on an absent key). -/
def PListMap.appendV : PListMap → Nat → ParameterList → PListMap
  | .nil, q, nv => .cons q nv .nil
  | .cons k v rest, q, nv => .cons k v (rest.appendV q nv)

/-- View of a child-list map as a plain association list. -/
def PListMap.toL : PListMap → List (Nat × ParameterList)
  | .nil => []
  | .cons k v rest => (k, v) :: rest.toL

/-- Objects component of `diff_plist` (util/mod.rs lines 25-38): keep an
object of `other` whole when its key is absent in `base`, diff it entrywise
when present with a different value, drop it when equal. -/
def diff_plist_objects (base other : List (Nat × ParameterObject)) :
    List (Nat × ParameterObject) :=
  other.filterMap (fun kv =>
    match alGet base kv.1 with
    | none => some kv
    | some bv => if bv ≠ kv.2 then some (kv.1, diff_pobj bv kv.2) else none)

/-- Objects component of `merge_plist` (util/mod.rs lines 59-69): fold the
diff objects over a clone of the base, inserting fresh keys at the end and
merging shared keys with `merge_pobj`. -/
def merge_plist_objects (base diffObjs : List (Nat × ParameterObject)) :
    List (Nat × ParameterObject) :=
  diffObjs.foldl (fun new kv =>
    match alGet new kv.1 with
    | none => new ++ [kv]
    | some nv => alSet new kv.1 (merge_pobj nv kv.2)) base

theorem diff_plist_objects_eq (base other : List (Nat × ParameterObject)) :
    diff_plist_objects base other = genDiff diff_pobj base other := by
  unfold diff_plist_objects genDiff
  congr 1
  funext kv
  cases alGet base kv.1 <;> rfl

theorem merge_plist_objects_eq (base diffObjs : List (Nat × ParameterObject)) :
    merge_plist_objects base diffObjs = genMerge merge_pobj base diffObjs := by
  unfold merge_plist_objects genMerge
  congr 1
  funext new kv
  cases alGet new kv.1 <;> rfl

mutual
/-- Embedding of `diff_plist` (util/mod.rs lines 9-41): the diff of two
parameter lists pairs the object-map diff with the recursive child-list
diff, both driven by the entries of `other`. -/
def diff_plist (base other : ParameterList) : ParameterList :=
  match other with
  | .mk oObjs oLists =>
      ParameterList.mk (diff_plist_objects base.objects oObjs)
        (diff_plist_lists base.lists oLists)

/-- Child-list component of `diff_plist`: keep a child of `other` whole when
its key is absent in `base`, recurse when present with a different value,
drop it when equal. -/
def diff_plist_lists (bl : PListMap) (ol : PListMap) : PListMap :=
  match ol with
  | .nil => .nil
  | .cons k v rest =>
    match bl.getV k with
    | none => .cons k v (diff_plist_lists bl rest)
    | some bv =>
        if bv ≠ v then .cons k (diff_plist bv v) (diff_plist_lists bl rest)
        else diff_plist_lists bl rest
end

mutual
/-- Embedding of `merge_plist` (util/mod.rs lines 57-83): overlay a diff onto
a base parameter list, merging object maps entrywise and child lists
recursively. -/
def merge_plist (base diff : ParameterList) : ParameterList :=
  match diff with
  | .mk dObjs dLists =>
      ParameterList.mk (merge_plist_objects base.objects dObjs)
        (merge_plist_lists base.lists dLists)

/-- Child-list component of `merge_plist`: fold the diff children over a
clone of the base, inserting fresh keys at the end and merging shared keys
recursively. -/
def merge_plist_lists (new : PListMap) (dl : PListMap) : PListMap :=
  match dl with
  | .nil => new
  | .cons k v rest =>
    match new.getV k with
    | none => merge_plist_lists (new.appendV k v) rest
    | some nv => merge_plist_lists (new.setV k (merge_plist nv v)) rest
end

theorem toL_getV : (m : PListMap) → (k : Nat) → alGet m.toL k = m.getV k
  | .nil, _ => rfl
  | .cons k0 v0 rest, k => by
    by_cases h : k0 = k <;>
      simp [PListMap.toL, PListMap.getV, alGet, h, toL_getV rest k]

theorem toL_setV : (m : PListMap) → (k : Nat) → (v : ParameterList) →
    (m.setV k v).toL = alSet m.toL k v
  | .nil, _, _ => rfl
  | .cons k0 v0 rest, k, v => by
    by_cases h : k0 = k <;>
      simp [PListMap.toL, PListMap.setV, alSet, h, toL_setV rest k v]

theorem toL_appendV : (m : PListMap) → (k : Nat) → (v : ParameterList) →
    (m.appendV k v).toL = m.toL ++ [(k, v)]
  | .nil, _, _ => rfl
  | .cons k0 v0 rest, k, v => by
    simp [PListMap.toL, PListMap.appendV, toL_appendV rest k v]

theorem toL_inj : (m : PListMap) → (l : PListMap) → m.toL = l.toL → m = l
  | .nil, .nil, _ => rfl
  | .nil, .cons k0 v0 rest, h => by simp [PListMap.toL] at h
  | .cons k0 v0 rest, .nil, h => by simp [PListMap.toL] at h
  | .cons k0 v0 rest, .cons k1 v1 rest1, h => by
    simp only [PListMap.toL, List.cons.injEq, Prod.mk.injEq] at h
    rw [h.1.1, h.1.2, toL_inj rest rest1 h.2]

theorem toL_diff_plist_lists : (ol : PListMap) → (bl : PListMap) →
    (diff_plist_lists bl ol).toL = genDiff diff_plist bl.toL ol.toL
  | .nil, bl => rfl
  | .cons k v rest, bl => by
    rw [show (PListMap.cons k v rest).toL = (k, v) :: rest.toL from rfl, genDiff_cons]
    simp only [toL_getV]
    cases hb : bl.getV k with
    | none =>
      rw [diff_plist_lists]
      simp only [hb]
      rw [show (PListMap.cons k v (diff_plist_lists bl rest)).toL
          = (k, v) :: (diff_plist_lists bl rest).toL from rfl, toL_diff_plist_lists rest bl]
    | some bv =>
      rw [diff_plist_lists]
      simp only [hb]
      by_cases hv : bv = v
      · rw [if_pos hv, if_neg (by simpa using hv)]
        exact toL_diff_plist_lists rest bl
      · rw [if_neg hv, if_pos (by simpa using hv)]
        rw [show (PListMap.cons k (diff_plist bv v) (diff_plist_lists bl rest)).toL
            = (k, diff_plist bv v) :: (diff_plist_lists bl rest).toL from rfl,
          toL_diff_plist_lists rest bl]

theorem toL_merge_plist_lists : (dl : PListMap) → (new : PListMap) →
    (merge_plist_lists new dl).toL = genMerge merge_plist new.toL dl.toL
  | .nil, new => rfl
  | .cons k v rest, new => by
    rw [show (PListMap.cons k v rest).toL = (k, v) :: rest.toL from rfl, genMerge_cons]
    simp only [toL_getV]
    cases hb : new.getV k with
    | none =>
      rw [merge_plist_lists]
      simp only [hb]
      rw [toL_merge_plist_lists rest (new.appendV k v), toL_appendV]
    | some nv =>
      rw [merge_plist_lists]
      simp only [hb]
      rw [toL_merge_plist_lists rest (new.setV k (merge_plist nv v)), toL_setV]

/-- Compatibility condition under which `merge_pobj` after `diff_pobj`
reconstructs the target object: the base key sequence is a duplicate-free
prefix of the target key sequence.  This is the hypothesis forced by the
additive diff: keys of the base that the target lacks would survive the
merge. -/
def pobjCompat (x y : ParameterObject) : Bool :=
  decide ((alKeys y).take (alKeys x).length = alKeys x) && decide (alKeys x).Nodup &&
    decide (alKeys y).Nodup

theorem pobj_recon (x y : ParameterObject) (h : pobjCompat x y = true) :
    merge_pobj x (diff_pobj x y) = y := by
  simp only [pobjCompat, Bool.and_eq_true, decide_eq_true_eq] at h
  rw [diff_pobj_eq_genDiff, merge_pobj_eq_genMerge x _ h.1.2]
  exact genRecon _ _ x y h.1.1 h.2 (fun k bv ov _ _ _ => rfl)

/-- Compatibility of two object maps: prefix/nodup keys plus `pobjCompat` of
every object shared by both maps. -/
def objsCompat (x y : List (Nat × ParameterObject)) : Bool :=
  decide ((alKeys y).take (alKeys x).length = alKeys x) && decide (alKeys x).Nodup &&
    decide (alKeys y).Nodup &&
    x.all (fun kv =>
      match alGet y kv.1 with
      | some yo => pobjCompat kv.2 yo
      | none => true)

theorem objsCompat_point (x y : List (Nat × ParameterObject)) (h : objsCompat x y = true)
    (k : Nat) (xo yo : ParameterObject) (hx : alGet x k = some xo)
    (hy : alGet y k = some yo) : pobjCompat xo yo = true := by
  simp only [objsCompat, Bool.and_eq_true, List.all_eq_true] at h
  have hmem := alGet_mem x k xo hx
  have hpt := h.2 (k, xo) hmem
  simp only [hy] at hpt
  exact hpt

theorem objs_recon (x y : List (Nat × ParameterObject)) (h : objsCompat x y = true) :
    merge_plist_objects x (diff_plist_objects x y) = y := by
  have h' := h
  simp only [objsCompat, Bool.and_eq_true, decide_eq_true_eq] at h'
  rw [diff_plist_objects_eq, merge_plist_objects_eq]
  apply genRecon _ _ x y h'.1.1.1 h'.1.2
  intro k bv ov h1 h2 _
  exact pobj_recon bv ov (objsCompat_point x y h k bv ov h1 h2)

mutual
/-- Compatibility of two parameter lists: prefix/nodup key sequences at the
node, `objsCompat` for the object maps, and recursive compatibility of every
shared child.  Under this condition the additive parameter-tree diff/merge
pair reconstructs its target. -/
def plistCompat : ParameterList → ParameterList → Bool
  | .mk xo xl, .mk yo yl =>
    objsCompat xo yo &&
      (decide ((alKeys yl.toL).take (alKeys xl.toL).length = alKeys xl.toL) &&
        decide (alKeys xl.toL).Nodup && decide (alKeys yl.toL).Nodup &&
        plistsCompatShared xl yl)

/-- Pointwise recursive compatibility of the children shared by two
child-list maps. -/
def plistsCompatShared : PListMap → PListMap → Bool
  | .nil, _ => true
  | .cons k v rest, yl =>
    (match yl.getV k with
      | some yv => plistCompat v yv
      | none => true) && plistsCompatShared rest yl
end

theorem plistsCompatShared_extract : (xl : PListMap) → (yl : PListMap) →
    plistsCompatShared xl yl = true → (k : Nat) → (xv yv : ParameterList) →
    xl.getV k = some xv → yl.getV k = some yv → plistCompat xv yv = true
  | .nil, _, _, k, xv, yv, hx, _ => by simp [PListMap.getV] at hx
  | .cons k0 v0 rest, yl, h, k, xv, yv, hx, hy => by
    rw [plistsCompatShared] at h
    simp only [Bool.and_eq_true] at h
    by_cases hk : k0 = k
    · subst hk
      rw [PListMap.getV, if_pos rfl] at hx
      have hxv : xv = v0 := (Option.some.inj hx).symm
      rw [hxv]
      have hpt := h.1
      simp only [hy] at hpt
      exact hpt
    · rw [PListMap.getV, if_neg hk] at hx
      exact plistsCompatShared_extract rest yl h.2 k xv yv hx hy

mutual
theorem plist_recon : (y : ParameterList) → (x : ParameterList) →
    plistCompat x y = true → merge_plist x (diff_plist x y) = y
  | .mk yo yl, .mk xo xl, h => by
    simp only [plistCompat, Bool.and_eq_true, decide_eq_true_eq] at h
    obtain ⟨hobjs, ⟨⟨htake, hnx⟩, hny⟩, hshared⟩ := h
    simp only [diff_plist, merge_plist, ParameterList.objects, ParameterList.lists]
    rw [ParameterList.mk.injEq]
    constructor
    · exact objs_recon xo yo hobjs
    · apply toL_inj
      rw [toL_merge_plist_lists, toL_diff_plist_lists]
      apply genRecon _ _ xl.toL yl.toL htake hny
      intro k bv ov h1 h2 _
      have hgx : xl.getV k = some bv := by rw [← toL_getV]; exact h1
      have hgy : yl.getV k = some ov := by rw [← toL_getV]; exact h2
      exact plists_recon_point yl k ov hgy bv
        (plistsCompatShared_extract xl yl hshared k bv ov hgx hgy)

theorem plists_recon_point : (yl : PListMap) → (k : Nat) → (yv : ParameterList) →
    yl.getV k = some yv → (xv : ParameterList) → plistCompat xv yv = true →
    merge_plist xv (diff_plist xv yv) = yv
  | .nil, k, yv, h, _, _ => by simp [PListMap.getV] at h
  | .cons k0 v0 rest, k, yv, h, xv, hc => by
    by_cases hk : k0 = k
    · have hv : yv = v0 := by
        rw [PListMap.getV, if_pos hk] at h
        exact (Option.some.inj h).symm
      rw [hv] at hc ⊢
      exact plist_recon v0 xv hc
    · rw [PListMap.getV, if_neg hk] at h
      exact plists_recon_point rest k yv h xv hc
end

/-- C1 (amended): `merge_plist x (diff_plist x y) = y` holds under structural,
order-sensitive equality whenever, recursively at every node and every
parameter object, the key sequence of `x` is a duplicate-free prefix of the
key sequence of `y` — in particular whenever `x` contains no keys that `y`
does not.  The claim as stated (reconstruction even when `x` has keys `y`
lacks) is refuted by `C1_extra_key_counterexample`: the diff is additive, so
base-only keys survive the merge. -/
theorem C1_merge_plist_reconstructs (x y : ParameterList)
    (h : plistCompat x y = true) :
    merge_plist x (diff_plist x y) = y :=
  plist_recon y x h

theorem C1_merge_plist_reconstructs_witness :
    plistCompat
        (ParameterList.mk [(1, [(5, Parameter.int 1)])]
          (PListMap.cons 3 (ParameterList.mk [(4, [(6, Parameter.str "a")])] .nil) .nil))
        (ParameterList.mk [(1, [(5, Parameter.int 2), (7, Parameter.int 9)]), (2, [(8, Parameter.int 0)])]
          (PListMap.cons 3 (ParameterList.mk [(4, [(6, Parameter.str "b")])] .nil) .nil)) = true ∧
      merge_plist
        (ParameterList.mk [(1, [(5, Parameter.int 1)])]
          (PListMap.cons 3 (ParameterList.mk [(4, [(6, Parameter.str "a")])] .nil) .nil))
        (diff_plist
          (ParameterList.mk [(1, [(5, Parameter.int 1)])]
            (PListMap.cons 3 (ParameterList.mk [(4, [(6, Parameter.str "a")])] .nil) .nil))
          (ParameterList.mk [(1, [(5, Parameter.int 2), (7, Parameter.int 9)]), (2, [(8, Parameter.int 0)])]
            (PListMap.cons 3 (ParameterList.mk [(4, [(6, Parameter.str "b")])] .nil) .nil))) =
        ParameterList.mk [(1, [(5, Parameter.int 2), (7, Parameter.int 9)]), (2, [(8, Parameter.int 0)])]
          (PListMap.cons 3 (ParameterList.mk [(4, [(6, Parameter.str "b")])] .nil) .nil) :=
  ⟨by decide, C1_merge_plist_reconstructs _ _ (by decide)⟩

/-- C1 (counterexample): with `x` holding an object key that `y` lacks,
`merge_plist x (diff_plist x y)` keeps that key and so differs from `y`,
refuting the claim that reconstruction holds even when `x` contains keys `y`
does not. -/
theorem C1_extra_key_counterexample :
    merge_plist (ParameterList.mk [(1, [(5, Parameter.int 1)])] .nil)
        (diff_plist (ParameterList.mk [(1, [(5, Parameter.int 1)])] .nil)
          (ParameterList.mk [] .nil)) ≠
      ParameterList.mk [] .nil := by
  decide

/-- Insertion into a `BTreeMap` represented as a strictly `key`-ascending
association list: place the new pair at its ordered position, overwriting an
equal key. -/
def btreeInsert {α : Type} : List (Nat × α) → Nat → α → List (Nat × α)
  | [], k, v => [(k, v)]
  | kv :: rest, k, v =>
    if k < kv.1 then (k, v) :: kv :: rest
    else if k = kv.1 then (k, v) :: rest
    else kv :: btreeInsert rest k v

/-- Embedding of `simple_index_merge` (util/mod.rs lines 136-144): chain base
and diff and collect into a fresh `BTreeMap`; the map is modelled as a
strictly ascending association list, so collecting folds ordered insertion
over the empty map. -/
def simple_index_merge {α : Type} (base diff : List (Nat × α)) : List (Nat × α) :=
  (base ++ diff).foldl (fun m kv => btreeInsert m kv.1 kv.2) []

/-- Representation invariant of the `BTreeMap` model: keys strictly
ascending in list order. -/
def btSorted {α : Type} (l : List (Nat × α)) : Prop :=
  List.Pairwise (fun a b => a.1 < b.1) l

instance btSortedDecidable {α : Type} (l : List (Nat × α)) : Decidable (btSorted l) :=
  inferInstanceAs (Decidable (List.Pairwise (fun (a b : Nat × α) => a.1 < b.1) l))

section BTreeLemmas

variable {α : Type}

theorem btreeInsert_get (l : List (Nat × α)) (k : Nat) (v : α) (q : Nat) :
    alGet (btreeInsert l k v) q = if k = q then some v else alGet l q := by
  induction l with
  | nil => by_cases h : k = q <;> simp [btreeInsert, alGet, h]
  | cons kv rest ih =>
    by_cases h1 : k < kv.1
    · have he : btreeInsert (kv :: rest) k v = (k, v) :: kv :: rest := by
        simp [btreeInsert, h1]
      rw [he]
      by_cases h : k = q <;> simp [alGet, h]
    · by_cases h2 : k = kv.1
      · have he : btreeInsert (kv :: rest) k v = (k, v) :: rest := by
          simp [btreeInsert, h1, h2]
        rw [he]
        by_cases h : k = q
        · simp [alGet, h]
        · have hne : ¬ kv.1 = q := fun e => h (h2.trans e)
          simp [alGet, h, hne]
      · simp only [btreeInsert, if_neg h1, if_neg h2]
        by_cases h : kv.1 = q
        · have hkq : ¬ k = q := fun e => h2 (e.trans h.symm)
          simp [alGet, h, hkq]
        · simp [alGet, h, ih]

theorem btreeInsert_mem (l : List (Nat × α)) (k : Nat) (v : α) (b : Nat × α)
    (h : b ∈ btreeInsert l k v) : b ∈ l ∨ b = (k, v) := by
  induction l with
  | nil => simp [btreeInsert] at h; right; exact h
  | cons kv rest ih =>
    by_cases h1 : k < kv.1
    · simp only [btreeInsert, if_pos h1, List.mem_cons] at h
      rcases h with h | h | h
      · right; exact h
      · left; rw [h]; exact List.mem_cons_self _ _
      · left; exact List.mem_cons_of_mem _ h
    · by_cases h2 : k = kv.1
      · simp only [btreeInsert, if_neg h1, if_pos h2, List.mem_cons] at h
        rcases h with h | h
        · right; exact h
        · left; exact List.mem_cons_of_mem _ h
      · simp only [btreeInsert, if_neg h1, if_neg h2, List.mem_cons] at h
        rcases h with h | h
        · left; rw [h]; exact List.mem_cons_self _ _
        · rcases ih h with h | h
          · left; exact List.mem_cons_of_mem _ h
          · right; exact h

theorem btreeInsert_sorted (l : List (Nat × α)) (k : Nat) (v : α) (hs : btSorted l) :
    btSorted (btreeInsert l k v) := by
  induction l with
  | nil => simp [btreeInsert, btSorted]
  | cons kv rest ih =>
    rw [btSorted, List.pairwise_cons] at hs
    by_cases h1 : k < kv.1
    · rw [btSorted]
      simp only [btreeInsert, if_pos h1]
      rw [List.pairwise_cons]
      constructor
      · intro b hb
        rcases List.mem_cons.1 hb with h | h
        · rw [h]; exact h1
        · exact h1.trans (hs.1 b h)
      · rw [List.pairwise_cons]
        exact hs
    · by_cases h2 : k = kv.1
      · rw [btSorted]
        simp only [btreeInsert, if_neg h1, if_pos h2]
        rw [List.pairwise_cons]
        exact ⟨fun b hb => h2 ▸ hs.1 b hb, hs.2⟩
      · rw [btSorted]
        simp only [btreeInsert, if_neg h1, if_neg h2]
        rw [List.pairwise_cons]
        constructor
        · intro b hb
          rcases btreeInsert_mem rest k v b hb with h | h
          · exact hs.1 b h
          · rw [h]
            exact Nat.lt_of_le_of_ne (Nat.le_of_not_lt h1) (fun e => h2 e.symm)
        · exact ih hs.2

theorem foldl_btreeInsert_sorted (l : List (Nat × α)) (acc : List (Nat × α))
    (hs : btSorted acc) :
    btSorted (l.foldl (fun m kv => btreeInsert m kv.1 kv.2) acc) := by
  induction l generalizing acc with
  | nil => exact hs
  | cons kv rest ih => exact ih _ (btreeInsert_sorted acc kv.1 kv.2 hs)

theorem foldl_btreeInsert_get (l : List (Nat × α)) (acc : List (Nat × α)) (q : Nat) :
    alGet (l.foldl (fun m kv => btreeInsert m kv.1 kv.2) acc) q =
      match alGet l.reverse q with
      | some v => some v
      | none => alGet acc q := by
  induction l generalizing acc with
  | nil => simp [alGet]
  | cons kv rest ih =>
    rw [List.foldl_cons, ih (btreeInsert acc kv.1 kv.2), List.reverse_cons, alGet_append,
      btreeInsert_get]
    cases alGet rest.reverse q with
    | some v => simp
    | none =>
      by_cases h : kv.1 = q <;> simp [alGet, h]

theorem alKeys_reverse (l : List (Nat × α)) : alKeys l.reverse = (alKeys l).reverse := by
  simp [alKeys]

theorem alGet_reverse_nodup (l : List (Nat × α)) (hn : (alKeys l).Nodup) (q : Nat) :
    alGet l.reverse q = alGet l q := by
  induction l with
  | nil => rfl
  | cons kv rest ih =>
    rw [alKeys_cons, List.nodup_cons] at hn
    rw [List.reverse_cons, alGet_append, ih hn.2]
    by_cases h : kv.1 = q
    · subst h
      rw [(alGet_eq_none_iff rest kv.1).2 hn.1]
      simp [alGet]
    · cases hr : alGet rest q with
      | some v => simp [alGet, h, hr]
      | none => simp [alGet, h, hr]

theorem btSorted_nodup_keys (l : List (Nat × α)) (hs : btSorted l) :
    (alKeys l).Nodup := by
  induction l with
  | nil => simp [alKeys_nil]
  | cons kv rest ih =>
    rw [btSorted, List.pairwise_cons] at hs
    rw [alKeys_cons, List.nodup_cons]
    constructor
    · intro hc
      rcases List.mem_map.1 hc with ⟨b, hb, he⟩
      exact absurd (he ▸ hs.1 b hb) (lt_irrefl kv.1)
    · exact ih hs.2

theorem simple_index_merge_get (base diff : List (Nat × α))
    (hb : btSorted base) (hd : btSorted diff) (q : Nat) :
    alGet (simple_index_merge base diff) q =
      match alGet diff q with
      | some dv => some dv
      | none => alGet base q := by
  unfold simple_index_merge
  rw [foldl_btreeInsert_get, List.reverse_append, alGet_append,
    alGet_reverse_nodup diff (btSorted_nodup_keys diff hd),
    alGet_reverse_nodup base (btSorted_nodup_keys base hb)]
  cases alGet diff q with
  | some v => simp
  | none => cases alGet base q <;> simp [alGet]

end BTreeLemmas

/-- First-of-two fallback on options: the patch value when present,
otherwise the base value.  Named so claim statements and witnesses share one
definition. -/
def optFallback {β : Type} (d b : Option β) : Option β :=
  match d with
  | some dv => some dv
  | none => b

/-- C7 (amended): for both `merge_pobj` and `simple_index_merge` the result
binds every key of the patch to the patch value, every key only in the base
to the base value, and no other keys.  The order clause holds only for
`merge_pobj` (base keys keep their insertion order and fresh patch keys are
appended in patch order); `simple_index_merge` collects into a `BTreeMap`,
so its result is in ascending index order, refuting the appended-order claim
(`C7_simple_index_merge_order_counterexample`). -/
theorem C7_merge_left_biased (base diff : ParameterObject)
    (hb : (alKeys base).Nodup) (hd : (alKeys diff).Nodup)
    {α : Type} (b2 d2 : List (Nat × α)) (hb2 : btSorted b2) (hd2 : btSorted d2) :
    (∀ k, alGet (merge_pobj base diff) k = optFallback (alGet diff k) (alGet base k)) ∧
    alKeys (merge_pobj base diff) =
      alKeys base ++ (alKeys diff).filter (fun k => ! alContains base k) ∧
    (∀ k, alGet (simple_index_merge b2 d2) k = optFallback (alGet d2 k) (alGet b2 k)) ∧
    btSorted (simple_index_merge b2 d2) := by
  refine ⟨?_, ?_, ?_, ?_⟩
  · intro k
    rw [merge_pobj_eq_genMerge base diff hb, genMerge_alGet _ _ _ hd k]
    cases alGet diff k with
    | none => rfl
    | some dv => cases alGet base k <;> rfl
  · rw [merge_pobj_eq_genMerge base diff hb, genMerge_alKeys _ _ _ hd,
      alKeys_filter diff (fun k => ! alContains base k)]
  · intro k
    rw [simple_index_merge_get b2 d2 hb2 hd2 k]
    cases alGet d2 k <;> rfl
  · exact foldl_btreeInsert_sorted _ _ (by simp [btSorted])

theorem C7_merge_left_biased_witness :
    ((alKeys [(1, Parameter.int 1)]).Nodup ∧
      (alKeys [(1, Parameter.int 2), (2, Parameter.int 3)]).Nodup ∧
      btSorted [(2, 0)] ∧ btSorted [(1, 5)]) ∧
    ((∀ k, alGet (merge_pobj [(1, Parameter.int 1)] [(1, Parameter.int 2), (2, Parameter.int 3)]) k =
      optFallback (alGet [(1, Parameter.int 2), (2, Parameter.int 3)] k)
        (alGet [(1, Parameter.int 1)] k)) ∧
    alKeys (merge_pobj [(1, Parameter.int 1)] [(1, Parameter.int 2), (2, Parameter.int 3)]) =
      alKeys [(1, Parameter.int 1)] ++
        (alKeys [(1, Parameter.int 2), (2, Parameter.int 3)]).filter
          (fun k => ! alContains [(1, Parameter.int 1)] k) ∧
    (∀ k, alGet (simple_index_merge [(2, 0)] [(1, 5)]) k =
      optFallback (alGet [(1, 5)] k) (alGet [(2, 0)] k)) ∧
    btSorted (simple_index_merge [(2, 0)] [(1, 5)])) :=
  ⟨⟨by decide, by decide, by decide, by decide⟩,
    C7_merge_left_biased [(1, Parameter.int 1)] [(1, Parameter.int 2), (2, Parameter.int 3)]
      (by decide) (by decide) [(2, 0)] [(1, 5)] (by decide) (by decide)⟩

/-- C7 (counterexample): `simple_index_merge` emits its result in ascending
index order, not with new patch keys appended after the base keys: merging
base `{2 ↦ 0}` with patch `{1 ↦ 5}` yields `[(1, 5), (2, 0)]`, not
`[(2, 0), (1, 5)]`. -/
theorem C7_simple_index_merge_order_counterexample :
    simple_index_merge [(2, 0)] [(1, 5)] = [(1, 5), (2, 0)] ∧
      simple_index_merge [(2, 0)] [(1, 5)] ≠ [(2, 0), (1, 5)] := by
  decide

mutual
/-- Binary-YAML value (`roead::byml::Byml`): the variants the merge engine
distinguishes — the null sentinel, signed and unsigned 32-bit integers,
strings, and string-keyed hashes.  Remaining roead variants are irrelevant
to the embedded functions, which treat them opaquely. -/
inductive Byml : Type where
  | null : Byml
  | bool (b : Bool) : Byml
  | i32 (v : Int) : Byml
  | u32 (v : Nat) : Byml
  | str (s : String) : Byml
  | hash (h : BymlHash) : Byml
deriving DecidableEq
/-- Ordered string-keyed map of BYML values (`roead::byml::Hash`), spelled
out so the mutual recursion with `Byml` stays structural. -/
inductive BymlHash : Type where
  | nil : BymlHash
  | cons (k : String) (v : Byml) (rest : BymlHash) : BymlHash
deriving DecidableEq
end

/-- Lookup in a BYML hash (`Hash::get`). -/
def BymlHash.getV : BymlHash → String → Option Byml
  | .nil, _ => none
  | .cons k v rest, q => if k = q then some v else rest.getV q

/-- Membership test in a BYML hash (`Hash::contains_key`). -/
def BymlHash.containsV (h : BymlHash) (q : String) : Bool :=
  (h.getV q).isSome

/-- Key sequence of a BYML hash. -/
def bhKeys : BymlHash → List String
  | .nil => []
  | .cons k _ rest => k :: bhKeys rest

/-- First half of `diff_byml_shallow` (util/mod.rs lines 95-100): the entries
of `other` whose binding differs from `base`. -/
def bhChanged (base : BymlHash) : BymlHash → BymlHash
  | .nil => .nil
  | .cons k v rest =>
    if base.getV k ≠ some v then .cons k v (bhChanged base rest)
    else bhChanged base rest

/-- Second half of `diff_byml_shallow` (util/mod.rs line 102): a sentinel
null entry for every key of `base` absent in `other`. -/
def bhDeleted (other : BymlHash) : BymlHash → BymlHash
  | .nil => .nil
  | .cons k _ rest =>
    if other.containsV k then bhDeleted other rest
    else .cons k Byml.null (bhDeleted other rest)

/-- Concatenation of two BYML hash iterators (`Iterator::chain`). -/
def bhAppend : BymlHash → BymlHash → BymlHash
  | .nil, l => l
  | .cons k v rest, l => .cons k v (bhAppend rest l)

/-- Insertion into a BYML hash: overwrite an existing key in place, append a
fresh key at the end. -/
def bhInsert : BymlHash → String → Byml → BymlHash
  | .nil, k, v => .cons k v .nil
  | .cons k0 v0 rest, k, v =>
    if k0 = k then .cons k v rest else .cons k0 v0 (bhInsert rest k v)

/-- Fold of `bhInsert` over the entries of the second map, starting from the
accumulator. -/
def bhCollectGo : BymlHash → BymlHash → BymlHash
  | acc, .nil => acc
  | acc, .cons k v rest => bhCollectGo (bhInsert acc k v) rest

/-- Collecting an iterator of pairs into a BYML hash (`collect`): fold
insertion over the empty map. -/
def bhCollect (l : BymlHash) : BymlHash :=
  bhCollectGo .nil l

/-- Hash-level body of `diff_byml_shallow`: changed-or-added entries of
`other` chained with sentinel nulls for keys deleted from `base`, collected
into a fresh hash. -/
def diff_byml_hash (base other : BymlHash) : BymlHash :=
  bhCollect (bhAppend (bhChanged base other) (bhDeleted other base))

/-- Embedding of `diff_byml_shallow` (util/mod.rs lines 93-107): defined on
hash pairs, a panic (modelled as `none`) otherwise. -/
def diff_byml_shallow : Byml → Byml → Option Byml
  | .hash base, .hash other => some (.hash (diff_byml_hash base other))
  | _, _ => none

/-- Hash-level body of `merge_byml_shallow`: base entries chained with diff
entries and collected, so the diff wins on shared keys. -/
def merge_byml_hash (base diff : BymlHash) : BymlHash :=
  bhCollect (bhAppend base diff)

/-- Embedding of `merge_byml_shallow` (util/mod.rs lines 109-122): hash/hash
merges with the diff winning, hash/null returns the base clone, anything
else panics (modelled as `none`). -/
def merge_byml_shallow : Byml → Byml → Option Byml
  | .hash base, .hash diff => some (.hash (merge_byml_hash base diff))
  | .hash base, .null => some (.hash base)
  | _, _ => none

/-- Last-occurrence lookup in a BYML hash iterator, the binding that survives
a `collect`. -/
def bhGetLast : BymlHash → String → Option Byml
  | .nil, _ => none
  | .cons k v rest, q =>
    match bhGetLast rest q with
    | some w => some w
    | none => if k = q then some v else none

theorem bhKeys_append : (l r : BymlHash) → bhKeys (bhAppend l r) = bhKeys l ++ bhKeys r
  | .nil, r => rfl
  | .cons k v rest, r => by
    simp [bhAppend, bhKeys, bhKeys_append rest r]

theorem bhInsert_get : (m : BymlHash) → (k : String) → (v : Byml) → (q : String) →
    (bhInsert m k v).getV q = if k = q then some v else m.getV q
  | .nil, k, v, q => by
    by_cases h : k = q <;> simp [bhInsert, BymlHash.getV, h]
  | .cons k0 v0 rest, k, v, q => by
    by_cases h0 : k0 = k
    · rw [show bhInsert (.cons k0 v0 rest) k v = .cons k v rest from by simp [bhInsert, h0]]
      by_cases h : k = q
      · simp [BymlHash.getV, h]
      · have hq : ¬ k0 = q := fun e => h (h0.symm.trans e)
        simp [BymlHash.getV, h, hq]
    · rw [show bhInsert (.cons k0 v0 rest) k v = .cons k0 v0 (bhInsert rest k v) from by
        simp [bhInsert, h0]]
      by_cases hq : k0 = q
      · have hk : ¬ k = q := fun e => h0 (hq.trans e.symm)
        simp [BymlHash.getV, hq, hk]
      · simp [BymlHash.getV, hq, bhInsert_get rest k v q]

theorem bhCollectGo_get : (l : BymlHash) → (acc : BymlHash) → (q : String) →
    (bhCollectGo acc l).getV q =
      match bhGetLast l q with
      | some w => some w
      | none => acc.getV q
  | .nil, acc, q => by simp [bhCollectGo, bhGetLast]
  | .cons k v rest, acc, q => by
    rw [show bhCollectGo acc (.cons k v rest) = bhCollectGo (bhInsert acc k v) rest from rfl,
      bhCollectGo_get rest (bhInsert acc k v) q]
    rw [show bhGetLast (.cons k v rest) q
        = (match bhGetLast rest q with
          | some w => some w
          | none => if k = q then some v else none) from rfl]
    cases bhGetLast rest q with
    | some w => simp
    | none =>
      rw [bhInsert_get]
      by_cases h : k = q <;> simp [h]

theorem bhGetLast_append : (l r : BymlHash) → (q : String) →
    bhGetLast (bhAppend l r) q =
      match bhGetLast r q with
      | some w => some w
      | none => bhGetLast l q
  | .nil, r, q => by cases h : bhGetLast r q <;> simp [bhAppend, bhGetLast, h]
  | .cons k v rest, r, q => by
    rw [show bhAppend (.cons k v rest) r = .cons k v (bhAppend rest r) from rfl]
    rw [show bhGetLast (.cons k v (bhAppend rest r)) q
        = (match bhGetLast (bhAppend rest r) q with
          | some w => some w
          | none => if k = q then some v else none) from rfl,
      bhGetLast_append rest r q]
    rw [show bhGetLast (.cons k v rest) q
        = (match bhGetLast rest q with
          | some w => some w
          | none => if k = q then some v else none) from rfl]
    cases hr : bhGetLast r q with
    | some w => simp
    | none => cases bhGetLast rest q <;> simp

theorem bhGetV_eq_none_iff : (l : BymlHash) → (q : String) →
    (l.getV q = none ↔ q ∉ bhKeys l)
  | .nil, q => by simp [BymlHash.getV, bhKeys]
  | .cons k v rest, q => by
    by_cases h : k = q
    · simp [BymlHash.getV, bhKeys, h]
    · have hq : ¬ q = k := fun e => h e.symm
      simp [BymlHash.getV, bhKeys, h, hq, bhGetV_eq_none_iff rest q]

theorem bhGetLast_eq_getV : (l : BymlHash) → (q : String) →
    (bhKeys l).Nodup → bhGetLast l q = l.getV q
  | .nil, q, _ => rfl
  | .cons k v rest, q, hn => by
    rw [show bhKeys (.cons k v rest) = k :: bhKeys rest from rfl, List.nodup_cons] at hn
    rw [show bhGetLast (.cons k v rest) q
        = (match bhGetLast rest q with
          | some w => some w
          | none => if k = q then some v else none) from rfl,
      bhGetLast_eq_getV rest q hn.2]
    by_cases h : k = q
    · subst h
      rw [(bhGetV_eq_none_iff rest k).2 hn.1]
      simp [BymlHash.getV]
    · cases hr : rest.getV q <;> simp [BymlHash.getV, h, hr]

theorem bhAppend_get : (l r : BymlHash) → (q : String) →
    (bhAppend l r).getV q =
      match l.getV q with
      | some v => some v
      | none => r.getV q
  | .nil, r, q => by simp [bhAppend, BymlHash.getV]
  | .cons k v rest, r, q => by
    by_cases h : k = q <;>
      simp [bhAppend, BymlHash.getV, h, bhAppend_get rest r q]

theorem bhAppend_assoc : (a b c : BymlHash) →
    bhAppend (bhAppend a b) c = bhAppend a (bhAppend b c)
  | .nil, b, c => rfl
  | .cons k v rest, b, c => by
    simp [bhAppend, bhAppend_assoc rest b c]

theorem bhInsert_notMem : (acc : BymlHash) → (k : String) → (v : Byml) →
    k ∉ bhKeys acc → bhInsert acc k v = bhAppend acc (.cons k v .nil)
  | .nil, k, v, _ => rfl
  | .cons k0 v0 rest, k, v, h => by
    rw [show bhKeys (.cons k0 v0 rest) = k0 :: bhKeys rest from rfl, List.mem_cons] at h
    push_neg at h
    have h0 : ¬ k0 = k := fun e => h.1 e.symm
    rw [show bhInsert (.cons k0 v0 rest) k v = .cons k0 v0 (bhInsert rest k v) from by
      simp [bhInsert, h0]]
    rw [show bhAppend (.cons k0 v0 rest) (.cons k v .nil)
        = .cons k0 v0 (bhAppend rest (.cons k v .nil)) from rfl,
      bhInsert_notMem rest k v h.2]

theorem bhAppend_nil : (acc : BymlHash) → bhAppend acc .nil = acc
  | .nil => rfl
  | .cons k v rest => by rw [bhAppend, bhAppend_nil rest]

theorem bhKeys_cons (k : String) (v : Byml) (rest : BymlHash) :
    bhKeys (.cons k v rest) = k :: bhKeys rest := rfl

theorem bhCollectGo_append : (l acc : BymlHash) → (bhKeys l).Nodup →
    (∀ q, q ∈ bhKeys l → q ∉ bhKeys acc) → bhCollectGo acc l = bhAppend acc l
  | .nil, acc, _, _ => by
    rw [bhCollectGo, bhAppend_nil]
  | .cons k v rest, acc, hn, hdisj => by
    rw [bhKeys_cons, List.nodup_cons] at hn
    have hnotin : k ∉ bhKeys acc := by
      apply hdisj k
      rw [bhKeys_cons]
      exact List.mem_cons_self _ _
    have hdisj2 : ∀ q, q ∈ bhKeys rest → q ∉ bhKeys (bhAppend acc (.cons k v .nil)) := by
      intro q hq
      rw [bhKeys_append]
      simp only [List.mem_append]
      push_neg
      constructor
      · apply hdisj q
        rw [bhKeys_cons]
        exact List.mem_cons_of_mem _ hq
      · intro hc
        rw [show bhKeys (BymlHash.cons k v .nil) = [k] from rfl, List.mem_singleton] at hc
        exact hn.1 (hc ▸ hq)
    rw [show bhCollectGo acc (.cons k v rest) = bhCollectGo (bhInsert acc k v) rest from rfl,
      bhInsert_notMem acc k v hnotin,
      bhCollectGo_append rest (bhAppend acc (.cons k v .nil)) hn.2 hdisj2,
      bhAppend_assoc]
    rfl

theorem bhCollect_eq_self (l : BymlHash) (h : (bhKeys l).Nodup) : bhCollect l = l := by
  rw [bhCollect, bhCollectGo_append l .nil h (by simp [bhKeys])]
  rfl

theorem bhChanged_get : (o : BymlHash) → (b : BymlHash) → (q : String) →
    (bhKeys o).Nodup →
    (bhChanged b o).getV q =
      match o.getV q with
      | none => none
      | some ov => if b.getV q = some ov then none else some ov
  | .nil, b, q, _ => by simp [bhChanged, BymlHash.getV]
  | .cons k v rest, b, q, hn => by
    rw [bhKeys_cons, List.nodup_cons] at hn
    by_cases hcond : b.getV k ≠ some v
    · rw [show bhChanged b (.cons k v rest) = .cons k v (bhChanged b rest) from by
        simp [bhChanged, hcond]]
      by_cases hq : k = q
      · subst hq
        have : rest.getV k = none := (bhGetV_eq_none_iff rest k).2 hn.1
        simp [BymlHash.getV, hcond]
      · simp [BymlHash.getV, hq, bhChanged_get rest b q hn.2]
    · rw [show bhChanged b (.cons k v rest) = bhChanged b rest from by
        simp [bhChanged, hcond]]
      rw [bhChanged_get rest b q hn.2]
      by_cases hq : k = q
      · subst hq
        rw [(bhGetV_eq_none_iff rest k).2 hn.1]
        push_neg at hcond
        simp [BymlHash.getV, hcond]
      · simp [BymlHash.getV, hq]

theorem bhDeleted_get : (b : BymlHash) → (o : BymlHash) → (q : String) →
    (bhKeys b).Nodup →
    (bhDeleted o b).getV q =
      match b.getV q with
      | none => none
      | some _ => if o.containsV q then none else some Byml.null
  | .nil, o, q, _ => by simp [bhDeleted, BymlHash.getV]
  | .cons k v rest, o, q, hn => by
    rw [bhKeys_cons, List.nodup_cons] at hn
    by_cases hcond : o.containsV k
    · rw [show bhDeleted o (.cons k v rest) = bhDeleted o rest from by
        simp [bhDeleted, hcond]]
      rw [bhDeleted_get rest o q hn.2]
      by_cases hq : k = q
      · subst hq
        rw [(bhGetV_eq_none_iff rest k).2 hn.1]
        simp [BymlHash.getV, hcond]
      · simp [BymlHash.getV, hq]
    · rw [show bhDeleted o (.cons k v rest) = .cons k Byml.null (bhDeleted o rest) from by
        simp [bhDeleted, hcond]]
      by_cases hq : k = q
      · subst hq
        simp [BymlHash.getV, hcond]
      · simp [BymlHash.getV, hq, bhDeleted_get rest o q hn.2]

theorem bhChanged_keys_mem : (o : BymlHash) → (b : BymlHash) → (q : String) →
    q ∈ bhKeys (bhChanged b o) → q ∈ bhKeys o
  | .nil, b, q, h => by simp [bhChanged, bhKeys] at h
  | .cons k v rest, b, q, h => by
    rw [bhKeys_cons]
    by_cases hcond : b.getV k ≠ some v
    · rw [show bhChanged b (.cons k v rest) = .cons k v (bhChanged b rest) from by
        simp [bhChanged, hcond], bhKeys_cons, List.mem_cons] at h
      rcases h with h | h
      · exact h ▸ List.mem_cons_self _ _
      · exact List.mem_cons_of_mem _ (bhChanged_keys_mem rest b q h)
    · rw [show bhChanged b (.cons k v rest) = bhChanged b rest from by
        simp [bhChanged, hcond]] at h
      exact List.mem_cons_of_mem _ (bhChanged_keys_mem rest b q h)

theorem bhChanged_keys_nodup : (o : BymlHash) → (b : BymlHash) →
    (bhKeys o).Nodup → (bhKeys (bhChanged b o)).Nodup
  | .nil, b, _ => by simp [bhChanged, bhKeys]
  | .cons k v rest, b, hn => by
    rw [bhKeys_cons, List.nodup_cons] at hn
    by_cases hcond : b.getV k ≠ some v
    · rw [show bhChanged b (.cons k v rest) = .cons k v (bhChanged b rest) from by
        simp [bhChanged, hcond], bhKeys_cons, List.nodup_cons]
      exact ⟨fun hc => hn.1 (bhChanged_keys_mem rest b k hc),
        bhChanged_keys_nodup rest b hn.2⟩
    · rw [show bhChanged b (.cons k v rest) = bhChanged b rest from by
        simp [bhChanged, hcond]]
      exact bhChanged_keys_nodup rest b hn.2

theorem bhDeleted_keys_mem : (b : BymlHash) → (o : BymlHash) → (q : String) →
    q ∈ bhKeys (bhDeleted o b) → q ∈ bhKeys b ∧ o.containsV q = false
  | .nil, o, q, h => by simp [bhDeleted, bhKeys] at h
  | .cons k v rest, o, q, h => by
    rw [bhKeys_cons]
    by_cases hcond : o.containsV k
    · rw [show bhDeleted o (.cons k v rest) = bhDeleted o rest from by
        simp [bhDeleted, hcond]] at h
      have := bhDeleted_keys_mem rest o q h
      exact ⟨List.mem_cons_of_mem _ this.1, this.2⟩
    · rw [show bhDeleted o (.cons k v rest) = .cons k Byml.null (bhDeleted o rest) from by
        simp [bhDeleted, hcond], bhKeys_cons, List.mem_cons] at h
      rcases h with h | h
      · refine ⟨h ▸ List.mem_cons_self _ _, ?_⟩
        rw [h]
        exact Bool.eq_false_iff.2 hcond
      · have := bhDeleted_keys_mem rest o q h
        exact ⟨List.mem_cons_of_mem _ this.1, this.2⟩

theorem bhDeleted_keys_nodup : (b : BymlHash) → (o : BymlHash) →
    (bhKeys b).Nodup → (bhKeys (bhDeleted o b)).Nodup
  | .nil, o, _ => by simp [bhDeleted, bhKeys]
  | .cons k v rest, o, hn => by
    rw [bhKeys_cons, List.nodup_cons] at hn
    by_cases hcond : o.containsV k
    · rw [show bhDeleted o (.cons k v rest) = bhDeleted o rest from by
        simp [bhDeleted, hcond]]
      exact bhDeleted_keys_nodup rest o hn.2
    · rw [show bhDeleted o (.cons k v rest) = .cons k Byml.null (bhDeleted o rest) from by
        simp [bhDeleted, hcond], bhKeys_cons, List.nodup_cons]
      exact ⟨fun hc => hn.1 (bhDeleted_keys_mem rest o k hc).1,
        bhDeleted_keys_nodup rest o hn.2⟩

theorem bhContains_iff_mem (l : BymlHash) (q : String) :
    l.containsV q = true ↔ q ∈ bhKeys l := by
  rw [BymlHash.containsV, Option.isSome_iff_ne_none, ne_eq, bhGetV_eq_none_iff, not_not]

theorem diff_byml_hash_keys_nodup (b o : BymlHash)
    (hb : (bhKeys b).Nodup) (ho : (bhKeys o).Nodup) :
    (bhKeys (bhAppend (bhChanged b o) (bhDeleted o b))).Nodup := by
  rw [bhKeys_append, List.nodup_append]
  refine ⟨bhChanged_keys_nodup o b ho, bhDeleted_keys_nodup b o hb, ?_⟩
  intro q hq hq2
  have h1 : q ∈ bhKeys o := bhChanged_keys_mem o b q hq
  have h2 : o.containsV q = false := (bhDeleted_keys_mem b o q hq2).2
  rw [← bhContains_iff_mem] at h1
  rw [h1] at h2
  exact Bool.true_eq_false.mp h2

theorem diff_byml_hash_eq_append (b o : BymlHash)
    (hb : (bhKeys b).Nodup) (ho : (bhKeys o).Nodup) :
    diff_byml_hash b o = bhAppend (bhChanged b o) (bhDeleted o b) := by
  rw [diff_byml_hash, bhCollect_eq_self _ (diff_byml_hash_keys_nodup b o hb ho)]

/-- Specification-side description (from the spec text, §4.3 binary-YAML
shallow diff) of what the shallow diff binds a key to: entries changed or
added in `other`, a sentinel null for keys present in `base` and absent in
`other`, nothing when the two bindings agree. -/
def diffBymlSpec (b o : BymlHash) (q : String) : Option Byml :=
  match o.getV q, b.getV q with
  | some ov, some bv => if bv = ov then none else some ov
  | some ov, none => some ov
  | none, some _ => some Byml.null
  | none, none => none

theorem diff_byml_hash_get (b o : BymlHash)
    (hb : (bhKeys b).Nodup) (ho : (bhKeys o).Nodup) (q : String) :
    (diff_byml_hash b o).getV q = diffBymlSpec b o q := by
  rw [diff_byml_hash_eq_append b o hb ho, bhAppend_get, bhChanged_get o b q ho,
    bhDeleted_get b o q hb, diffBymlSpec]
  cases ho2 : o.getV q with
  | none =>
    cases hb2 : b.getV q with
    | none => simp
    | some bv => simp [BymlHash.containsV, ho2]
  | some ov =>
    cases hb2 : b.getV q with
    | none => simp
    | some bv =>
      by_cases hv : bv = ov
      · simp [BymlHash.containsV, ho2, hv]
      · simp [BymlHash.containsV, ho2, hv]

theorem merge_byml_hash_get (b d : BymlHash)
    (hb : (bhKeys b).Nodup) (hd : (bhKeys d).Nodup) (q : String) :
    (merge_byml_hash b d).getV q = optFallback (d.getV q) (b.getV q) := by
  rw [merge_byml_hash, bhCollect, bhCollectGo_get, bhGetLast_append,
    bhGetLast_eq_getV d q hd, bhGetLast_eq_getV b q hb]
  cases d.getV q with
  | some w => simp [optFallback]
  | none =>
    cases b.getV q with
    | some w => simp [optFallback, BymlHash.getV]
    | none => simp [optFallback, BymlHash.getV]

/-- C8: the shallow BYML diff binds a key to the value of `other` exactly
when the key is absent in `base` or bound differently there, to the null
sentinel exactly when the key is present in `base` and absent in `other`,
and omits it when the bindings agree (`diffBymlSpec`); the shallow merge of
`base` with that diff then binds every deleted key to the null sentinel. -/
theorem C8_byml_shallow_diff_merge (b o : BymlHash)
    (hb : (bhKeys b).Nodup) (ho : (bhKeys o).Nodup) :
    diff_byml_shallow (.hash b) (.hash o) = some (.hash (diff_byml_hash b o)) ∧
    (∀ q, (diff_byml_hash b o).getV q = diffBymlSpec b o q) ∧
    merge_byml_shallow (.hash b) (.hash (diff_byml_hash b o)) =
      some (.hash (merge_byml_hash b (diff_byml_hash b o))) ∧
    (∀ q, b.containsV q = true → o.containsV q = false →
      (merge_byml_hash b (diff_byml_hash b o)).getV q = some Byml.null) := by
  refine ⟨rfl, diff_byml_hash_get b o hb ho, rfl, ?_⟩
  intro q hbq hoq
  have hdn : (bhKeys (diff_byml_hash b o)).Nodup := by
    rw [diff_byml_hash_eq_append b o hb ho]
    exact diff_byml_hash_keys_nodup b o hb ho
  rw [merge_byml_hash_get b _ hb hdn q, diff_byml_hash_get b o hb ho q, diffBymlSpec]
  have hbs : (b.getV q).isSome = true := hbq
  have hos : o.getV q = none := by
    rw [bhGetV_eq_none_iff]
    intro hc
    rw [(bhContains_iff_mem o q).2 hc] at hoq
    exact Bool.true_eq_false.mp hoq
  rw [hos]
  cases hb2 : b.getV q with
  | none => rw [hb2] at hbs; simp at hbs
  | some bv => rfl

/-- Concrete base hash for the C8 witness. -/
def c8wB : BymlHash := .cons "a" (Byml.i32 1) (.cons "d" (Byml.i32 2) .nil)

/-- Concrete other hash for the C8 witness. -/
def c8wO : BymlHash := .cons "a" (Byml.i32 3) .nil

theorem C8_byml_shallow_diff_merge_witness :
    ((bhKeys c8wB).Nodup ∧ (bhKeys c8wO).Nodup) ∧
    (diff_byml_shallow (.hash c8wB) (.hash c8wO) = some (.hash (diff_byml_hash c8wB c8wO)) ∧
      (∀ q, (diff_byml_hash c8wB c8wO).getV q = diffBymlSpec c8wB c8wO q) ∧
      merge_byml_shallow (.hash c8wB) (.hash (diff_byml_hash c8wB c8wO)) =
        some (.hash (merge_byml_hash c8wB (diff_byml_hash c8wB c8wO))) ∧
      (∀ q, c8wB.containsV q = true → c8wO.containsV q = false →
        (merge_byml_hash c8wB (diff_byml_hash c8wB c8wO)).getV q = some Byml.null)) :=
  ⟨⟨by decide, by decide⟩,
    C8_byml_shallow_diff_merge c8wB c8wO (by decide) (by decide)⟩

/-- Bit reinterpretation of a stored `u32` as a signed 32-bit integer
(`i32::from_le_bytes(v.to_le_bytes())`). -/
def u32_as_i32 (v : Nat) : Int :=
  if v < 2 ^ 31 then (v : Int) else (v : Int) - 2 ^ 32

/-- Bit pattern of a signed 32-bit integer as a `u32`
(`u32::from_le_bytes(w.to_le_bytes())`). -/
def i32_bits (w : Int) : Nat :=
  (w % 2 ^ 32).toNat

/-- Embedding of `impl From<BymlHashValue> for Byml` (util/mod.rs lines
235-243): re-emit the stored `u32` as an unsigned BYML integer when it is at
least `0x80000000`, otherwise as the bit-identical signed BYML integer. -/
def bymlOfHashValue (v : Nat) : Byml :=
  if v ≥ 0x80000000 then Byml.u32 v else Byml.i32 (u32_as_i32 v)

/-- C9: for every `u32` value `v`, converting `BymlHashValue(v)` to a BYML
value yields the unsigned variant `u32 v` iff `v ≥ 0x80000000`, and
otherwise yields the signed variant whose bit pattern is identical to
`v`. -/
theorem C9_hash_value_reemission (v : Nat) (hv : v < 2 ^ 32) :
    (bymlOfHashValue v = Byml.u32 v ↔ 0x80000000 ≤ v) ∧
    (v < 0x80000000 →
      bymlOfHashValue v = Byml.i32 (u32_as_i32 v) ∧ i32_bits (u32_as_i32 v) = v) := by
  constructor
  · constructor
    · intro h
      by_contra hc
      push_neg at hc
      rw [bymlOfHashValue, if_neg (by omega)] at h
      exact Byml.noConfusion h
    · intro h
      rw [bymlOfHashValue, if_pos h]
  · intro h
    have h31 : v < 2 ^ 31 := by norm_num at h ⊢; omega
    constructor
    · rw [bymlOfHashValue, if_neg (by omega)]
    · rw [u32_as_i32, if_pos h31, i32_bits]
      have : ((v : Int) % 2 ^ 32) = (v : Int) := by
        apply Int.emod_eq_of_lt (by omega)
        exact_mod_cast (by omega : (v : Int) < 2 ^ 32)
      rw [this]
      exact Int.toNat_natCast v

theorem C9_hash_value_reemission_witness :
    (5 < 2 ^ 32 ∧ 3000000000 < 2 ^ 32) ∧
    ((bymlOfHashValue 5 = Byml.u32 5 ↔ 0x80000000 ≤ 5) ∧
      (5 < 0x80000000 →
        bymlOfHashValue 5 = Byml.i32 (u32_as_i32 5) ∧ i32_bits (u32_as_i32 5) = 5)) ∧
    ((bymlOfHashValue 3000000000 = Byml.u32 3000000000 ↔ 0x80000000 ≤ 3000000000) ∧
      (3000000000 < 0x80000000 →
        bymlOfHashValue 3000000000 = Byml.i32 (u32_as_i32 3000000000) ∧
          i32_bits (u32_as_i32 3000000000) = 3000000000)) :=
  ⟨⟨by norm_num, by norm_num⟩,
    C9_hash_value_reemission 5 (by norm_num),
    C9_hash_value_reemission 3000000000 (by norm_num)⟩

/-- Resource model (`uk_content::resource::ResourceData`): the
Binary/Mergeable/Sarc trichotomy.  The `mergeable` arm carries a parameter
list as the representative of the two dozen mergeable kinds (their merge is
`merge_plist`); the `sarc` arm carries the ordered child canonical paths. -/
inductive ResourceData : Type where
  | binary (data : List Nat) : ResourceData
  | mergeable (m : ParameterList) : ResourceData
  | sarc (children : List String) : ResourceData
deriving DecidableEq

/-- Dump-reader error (`uk-reader/src/lib.rs`, `ROMError`): only the variant
the embedded functions produce is carried; the host path recorded alongside
it in Rust is irrelevant to the claims. -/
inductive ROMError : Type where
  | FileNotFound (path : String) : ROMError
deriving DecidableEq

/-- State of `GameROMReader` (uk-reader/src/lib.rs lines 60-63): the backing
ROM source as a map from (already canonical) paths to raw file bytes, plus
the moka resource cache keyed by canonical path.  `canonicalize` lives in
uk-content outside these sources, so paths are taken as already
canonical. -/
structure GameROMReader where
  sourceFiles : List (String × List Nat)
  cache : List (String × ResourceData)
deriving DecidableEq

/-- Embedding of `GameROMReader::get_resource` (uk-reader/src/lib.rs lines
93-102): a pure cache lookup — the cached resource on a hit, a
`FileNotFound` error on a miss.  It does not consult the ROM source and does
not populate the cache. -/
def GameROMReader.get_resource (r : GameROMReader) (name : String) :
    Except ROMError ResourceData :=
  match alGet r.cache name with
  | some res => .ok res
  | none => .error (.FileNotFound name)

/-- Embedding of `GameROMReader::get_file` (uk-reader/src/lib.rs lines
104-128).  `parse` stands for the external pipeline (yaz0 `decompress_if`
followed by `ResourceData::from_binary`), returning the parsed resource and
the `processed` child resources a packed container contributes; `none`
models its error channel, which `get_file` collapses into `FileNotFound`.
On a cache hit the cached value is returned untouched; on a miss the
resource is parsed, the cache gains the entry and every processed child, and
on any error the cache is not populated. -/
def GameROMReader.get_file (r : GameROMReader)
    (parse : List Nat → Option (ResourceData × List (String × ResourceData)))
    (path : String) : Except ROMError ResourceData × GameROMReader :=
  match alGet r.cache path with
  | some res => (.ok res, r)
  | none =>
    match alGet r.sourceFiles path with
    | none => (.error (.FileNotFound path), r)
    | some data =>
      match parse data with
      | none => (.error (.FileNotFound path), r)
      | some (res, children) =>
        (.ok res,
          { r with
            cache := children.foldl (fun c kv => alInsert c kv.1 kv.2)
              (alInsert r.cache path res) })

theorem alGet_alInsert_self {κ α : Type} [DecidableEq κ] (m : List (κ × α)) (k : κ) (v : α) :
    alGet (alInsert m k v) k = some v := by
  rw [alInsert]
  by_cases h : alContains m k = true
  · rw [if_pos h]
    exact alGet_alSet_self m k v ((alContains_iff_mem m k).1 h)
  · rw [if_neg h]
    rw [alGet_append, (alGet_eq_none_iff m k).2 (fun hm => h ((alContains_iff_mem m k).2 hm))]
    simp [alGet]

theorem alGet_alInsert_ne {κ α : Type} [DecidableEq κ] (m : List (κ × α)) (k q : κ) (v : α)
    (h : q ≠ k) : alGet (alInsert m k v) q = alGet m q := by
  rw [alInsert]
  by_cases hc : alContains m k = true
  · rw [if_pos hc]
    exact alGet_alSet_ne m k q v h
  · rw [if_neg hc, alGet_append]
    cases hq : alGet m q with
    | some w => simp
    | none =>
      have hne : ¬ k = q := fun e => h e.symm
      simp [alGet, hq, hne]

theorem alGet_foldl_alInsert_notMem {κ α : Type} [DecidableEq κ]
    (l : List (κ × α)) (acc : List (κ × α)) (q : κ) (h : q ∉ alKeys l) :
    alGet (l.foldl (fun c kv => alInsert c kv.1 kv.2) acc) q = alGet acc q := by
  induction l generalizing acc with
  | nil => rfl
  | cons kv rest ih =>
    rw [alKeys_cons, List.mem_cons] at h
    push_neg at h
    rw [List.foldl_cons, ih (alInsert acc kv.1 kv.2) h.2,
      alGet_alInsert_ne acc kv.1 q kv.2 h.1]

/-- C3 (amended): `get_resource` is a pure cache lookup — it returns the
cached parsed resource on a hit and fails with `FileNotFound` on a miss,
without parsing or caching; parsing and caching happen in `get_file`.  After
a successful `get_file` on a cold path, `get_resource` on the updated reader
returns exactly the parsed resource, and a repeated `get_file` is a cache
hit returning the same resource with the state unchanged (cache coherence:
successive lookups return structurally equal values).  On the original
reader, `get_resource` fails even though the path is present in the dump. -/
theorem C3_get_resource_cache_semantics (r : GameROMReader)
    (parse : List Nat → Option (ResourceData × List (String × ResourceData)))
    (p : String) (data : List Nat) (res : ResourceData)
    (children : List (String × ResourceData))
    (hmiss : alGet r.cache p = none)
    (hdata : alGet r.sourceFiles p = some data)
    (hparse : parse data = some (res, children))
    (hchild : p ∉ alKeys children) :
    r.get_resource p = .error (.FileNotFound p) ∧
    (r.get_file parse p).1 = .ok res ∧
    (r.get_file parse p).2.get_resource p = .ok res ∧
    (r.get_file parse p).2.get_file parse p = (.ok res, (r.get_file parse p).2) := by
  have hfile : r.get_file parse p =
      (.ok res,
        { r with
          cache := children.foldl (fun c kv => alInsert c kv.1 kv.2)
            (alInsert r.cache p res) }) := by
    rw [GameROMReader.get_file]
    simp only [hmiss, hdata, hparse]
  have hcache2 : alGet (r.get_file parse p).2.cache p = some res := by
    rw [hfile]
    exact (alGet_foldl_alInsert_notMem children _ p hchild).trans
      (alGet_alInsert_self r.cache p res)
  refine ⟨?_, ?_, ?_, ?_⟩
  · rw [GameROMReader.get_resource, hmiss]
  · rw [hfile]
  · rw [GameROMReader.get_resource, hcache2]
  · rw [show (r.get_file parse p).2.get_file parse p
        = ((.ok res : Except ROMError ResourceData), (r.get_file parse p).2) from by
      rw [GameROMReader.get_file, hcache2]]

theorem C3_get_resource_cache_semantics_witness :
    (alGet (GameROMReader.mk [("Pack/A.pack", [1, 2])] []).cache "Pack/A.pack" = none ∧
      alGet (GameROMReader.mk [("Pack/A.pack", [1, 2])] []).sourceFiles "Pack/A.pack"
        = some [1, 2] ∧
      (fun d => some (ResourceData.binary d, ([] : List (String × ResourceData)))) [1, 2]
        = some (ResourceData.binary [1, 2], []) ∧
      "Pack/A.pack" ∉ alKeys ([] : List (String × ResourceData))) ∧
    ((GameROMReader.mk [("Pack/A.pack", [1, 2])] []).get_resource "Pack/A.pack"
        = .error (.FileNotFound "Pack/A.pack") ∧
      ((GameROMReader.mk [("Pack/A.pack", [1, 2])] []).get_file
          (fun d => some (ResourceData.binary d, [])) "Pack/A.pack").1
        = .ok (ResourceData.binary [1, 2]) ∧
      ((GameROMReader.mk [("Pack/A.pack", [1, 2])] []).get_file
          (fun d => some (ResourceData.binary d, [])) "Pack/A.pack").2.get_resource
          "Pack/A.pack" = .ok (ResourceData.binary [1, 2]) ∧
      ((GameROMReader.mk [("Pack/A.pack", [1, 2])] []).get_file
          (fun d => some (ResourceData.binary d, [])) "Pack/A.pack").2.get_file
          (fun d => some (ResourceData.binary d, [])) "Pack/A.pack"
        = (.ok (ResourceData.binary [1, 2]),
          ((GameROMReader.mk [("Pack/A.pack", [1, 2])] []).get_file
            (fun d => some (ResourceData.binary d, [])) "Pack/A.pack").2)) :=
  ⟨⟨rfl, rfl, rfl, by decide⟩,
    C3_get_resource_cache_semantics (GameROMReader.mk [("Pack/A.pack", [1, 2])] [])
      (fun d => some (ResourceData.binary d, [])) "Pack/A.pack" [1, 2]
      (ResourceData.binary [1, 2]) [] rfl rfl rfl (by decide)⟩

/-- C3 (counterexample): with a cold cache, `get_resource` on a path present
in the game dump fails with `FileNotFound` instead of parsing and caching
the resource — `get_file` on the same reader succeeds, showing the path is
present and parseable. -/
theorem C3_get_resource_cold_cache_counterexample :
    (GameROMReader.mk [("Pack/A.pack", [1, 2])] []).get_resource "Pack/A.pack"
        = .error (.FileNotFound "Pack/A.pack") ∧
      ((GameROMReader.mk [("Pack/A.pack", [1, 2])] []).get_file
          (fun d => some (ResourceData.binary d, [])) "Pack/A.pack").1
        = .ok (ResourceData.binary [1, 2]) := by
  constructor
  · rfl
  · rfl

/-- Backing store of a packaged mod (uk-mod/src/unpack.rs): either a ZIP
archive (`ModReader.zip = Some(..)`, entries indexed by inner path, payloads
Zstandard-compressed) or an unpacked directory (`zip = None`, files stored
on disk, already decompressed by `unzip_mod`). -/
inductive ModSource : Type where
  | zip (files : List (String × List Nat)) : ModSource
  | dir (files : List (String × List Nat)) : ModSource
deriving DecidableEq

/-- State of `ModReader` (uk-mod/src/unpack.rs lines 127-135) as far as
`get_data` consults it: the backing store and the active options in
declaration order (each contributing its `options/<opt>/` subtree).  The
meta and manifest fields play no part in `get_data`.  `canonicalize` lives
outside these sources, so `get_data` is modelled on the canonical path it
produces. -/
structure ModReader where
  source : ModSource
  options : List String
deriving DecidableEq

/-- Option-subtree location of a canonical path
(`Path::new("options").join(&opt.path).join(canon)`). -/
def optPath (opt canon : String) : String :=
  "options/" ++ opt ++ "/" ++ canon

/-- Option loop of `ModReader::get_data` (uk-mod/src/unpack.rs lines
155-164): probe `options/<opt>/<canon>` for each active option in order;
the first hit wins, ZIP payloads are decoded (`zstd::decode_all`, modelled
by the `decode` parameter), directory payloads are returned as read. -/
def ModReader.get_data_opts (src : ModSource) (decode : List Nat → List Nat)
    (canon : String) : List String → Except String (List Nat)
  | [] => .error ("Failed to read file " ++ canon ++ " from mod")
  | opt :: rest =>
    match src with
    | .zip files =>
      match alGet files (optPath opt canon) with
      | some data => .ok (decode data)
      | none => ModReader.get_data_opts src decode canon rest
    | .dir files =>
      match alGet files (optPath opt canon) with
      | some data => .ok data
      | none => ModReader.get_data_opts src decode canon rest

/-- Embedding of `ModReader::get_data` (uk-mod/src/unpack.rs lines 146-171):
probe the mod root at the canonical path, then each active option subtree in
declaration order; ZIP hits are Zstandard-decoded, directory hits are
returned raw. -/
def ModReader.get_data (r : ModReader) (decode : List Nat → List Nat)
    (canon : String) : Except String (List Nat) :=
  match r.source with
  | .zip files =>
    match alGet files canon with
    | some data => .ok (decode data)
    | none => ModReader.get_data_opts r.source decode canon r.options
  | .dir files =>
    match alGet files canon with
    | some data => .ok data
    | none => ModReader.get_data_opts r.source decode canon r.options

/-- Files of a mod source, whichever store backs it. -/
def ModSource.files : ModSource → List (String × List Nat)
  | .zip files => files
  | .dir files => files

/-- Specified search order (spec §4.5): the mod root at the canonical path,
then `options/<opt>/<canonical path>` for each active option in declaration
order. -/
def modSearchPaths (r : ModReader) (canon : String) : List String :=
  canon :: r.options.map (fun opt => optPath opt canon)

/-- First hit of a probe sequence in a file store. -/
def firstHit (files : List (String × List Nat)) : List String → Option (List Nat)
  | [] => none
  | p :: rest =>
    match alGet files p with
    | some d => some d
    | none => firstHit files rest

/-- Specification-side description of `get_data` built from the spec's words
(§4.5): search the probe sequence, first hit wins; the payload is
Zstandard-decompressed for archive-backed readers and returned as stored for
directory-backed readers (whose files were decompressed at unzip time). -/
def get_data_spec (r : ModReader) (decode : List Nat → List Nat)
    (canon : String) : Except String (List Nat) :=
  match firstHit r.source.files (modSearchPaths r canon) with
  | some data =>
    .ok (match r.source with
      | .zip _ => decode data
      | .dir _ => data)
  | none => .error ("Failed to read file " ++ canon ++ " from mod")

theorem get_data_opts_spec (src : ModSource) (decode : List Nat → List Nat)
    (canon : String) (opts : List String) :
    ModReader.get_data_opts src decode canon opts =
      match firstHit src.files (opts.map (fun opt => optPath opt canon)) with
      | some data =>
        .ok (match src with
          | .zip _ => decode data
          | .dir _ => data)
      | none => .error ("Failed to read file " ++ canon ++ " from mod") := by
  induction opts with
  | nil => cases src <;> rfl
  | cons opt rest ih =>
    cases src with
    | zip files =>
      rw [ModReader.get_data_opts]
      cases h : alGet files (optPath opt canon) with
      | some d =>
        rw [List.map_cons, show firstHit (ModSource.zip files).files (optPath opt canon :: _)
            = some d from by rw [firstHit, show (ModSource.zip files).files = files from rfl, h]]
      | none =>
        rw [ih, List.map_cons, show firstHit (ModSource.zip files).files (optPath opt canon :: _)
            = firstHit (ModSource.zip files).files (rest.map (fun o => optPath o canon)) from by
          rw [firstHit, show (ModSource.zip files).files = files from rfl, h]]
    | dir files =>
      rw [ModReader.get_data_opts]
      cases h : alGet files (optPath opt canon) with
      | some d =>
        rw [List.map_cons, show firstHit (ModSource.dir files).files (optPath opt canon :: _)
            = some d from by rw [firstHit, show (ModSource.dir files).files = files from rfl, h]]
      | none =>
        rw [ih, List.map_cons, show firstHit (ModSource.dir files).files (optPath opt canon :: _)
            = firstHit (ModSource.dir files).files (rest.map (fun o => optPath o canon)) from by
          rw [firstHit, show (ModSource.dir files).files = files from rfl, h]]

/-- C4 (amended): `get_data` searches (1) the mod root at the canonical
path, then (2) each active option subtree `options/<opt>/<canonical path>`
in declaration order, and the first hit wins — but the payload is the
Zstandard-decompressed stored contents only for archive-backed readers;
directory-backed readers return the stored file contents unchanged (they
were decompressed when the mod was unzipped), refuting the claim that the
payload is always decompressed (`C4_dir_no_decompress_counterexample`). -/
theorem C4_get_data_search_order (r : ModReader) (decode : List Nat → List Nat)
    (canon : String) :
    r.get_data decode canon = get_data_spec r decode canon := by
  rw [ModReader.get_data, get_data_spec, modSearchPaths]
  cases hs : r.source with
  | zip files =>
    cases h : alGet files canon with
    | some d => simp [ModSource.files, firstHit, h]
    | none => simp [ModSource.files, firstHit, h, get_data_opts_spec]
  | dir files =>
    cases h : alGet files canon with
    | some d => simp [ModSource.files, firstHit, h]
    | none => simp [ModSource.files, firstHit, h, get_data_opts_spec]

/-- C4 (counterexample): a directory-backed reader returns the stored bytes
unchanged — with stored contents `[1, 2, 3]` and a decompressor mapping
everything to `[9, 9]`, `get_data` returns `[1, 2, 3]`, not the
decompressed `[9, 9]`, refuting the claim that the returned payload is
always the Zstandard-decompressed contents of the stored file. -/
theorem C4_dir_no_decompress_counterexample :
    (ModReader.mk (.dir [("Actor/A.yml", [1, 2, 3])]) []).get_data
        (fun _ => [9, 9]) "Actor/A.yml" = .ok [1, 2, 3] ∧
      (ModReader.mk (.dir [("Actor/A.yml", [1, 2, 3])]) []).get_data
        (fun _ => [9, 9]) "Actor/A.yml" ≠ .ok [9, 9] := by
  constructor
  · rfl
  · intro hc
    rw [show (ModReader.mk (.dir [("Actor/A.yml", [1, 2, 3])]) []).get_data
        (fun _ => [9, 9]) "Actor/A.yml" = Except.ok [1, 2, 3] from rfl] at hc
    exact absurd (Except.ok.inj hc) (by decide)

/-- Test for the error arm of a build result. -/
def isErrB {ε α : Type} : Except ε α → Bool
  | .error _ => true
  | .ok _ => false

/-- Payload of a successful build, used to state which bytes reach the
output tree. -/
def buildData (build : String → Except String (List Nat)) (f : String) : List Nat :=
  match build f with
  | .ok d => d
  | .error _ => []

/-- Embedding of `ModUnpacker::unpack_files` (uk-mod/src/unpack.rs lines
385-406) as one sequential schedule of the data-parallel loop: each file is
built, immediately compressed per suffix (`compress_if`, the `compressIf`
parameter) and written into the output tree at `dir/<file>`, and its
resource-size-table value (`rstb::calc`, the `calcSize` parameter) is
recorded; the first build error aborts the run, but files already written
stay in the output tree.  The output tree is threaded as an association
list from paths to written bytes. -/
def unpack_files (build : String → Except String (List Nat))
    (calcSize : String → List Nat → Option Nat)
    (compressIf : String → List Nat → List Nat) (dir : String) :
    List String → List (String × List Nat) →
    Except String (List (String × Option Nat)) × List (String × List Nat)
  | [], out => (.ok [], out)
  | f :: rest, out =>
    match build f with
    | .error e => (.error e, out)
    | .ok data =>
      match unpack_files build calcSize compressIf dir rest
          (out ++ [(dir ++ "/" ++ f, compressIf (dir ++ "/" ++ f) data)]) with
      | (.ok sizes, outF) => (.ok ((dir ++ "/" ++ f, calcSize (dir ++ "/" ++ f) data) :: sizes), outF)
      | (.error e, outF) => (.error e, outF)

/-- Embedding of `ModUnpacker::unpack` (uk-mod/src/unpack.rs lines 352-383):
build and write the content files into the content platform prefix, then the
add-on files into the aoc prefix, chaining the recorded size-table values;
an error in either phase propagates, leaving whatever was already written in
the output tree. -/
def ModUnpacker.unpack (build : String → Except String (List Nat))
    (calcSize : String → List Nat → Option Nat)
    (compressIf : String → List Nat → List Nat)
    (contentDir aocDir : String) (content_files aoc_files : List String) :
    Except String (List (String × Option Nat)) × List (String × List Nat) :=
  match unpack_files build calcSize compressIf contentDir content_files [] with
  | (.error e, out1) => (.error e, out1)
  | (.ok sizes1, out1) =>
    match unpack_files build calcSize compressIf aocDir aoc_files out1 with
    | (.error e, out2) => (.error e, out2)
    | (.ok sizes2, out2) => (.ok (sizes1 ++ sizes2), out2)

theorem unpack_files_out (build : String → Except String (List Nat))
    (calcSize : String → List Nat → Option Nat)
    (compressIf : String → List Nat → List Nat) (dir : String)
    (fs : List String) (out : List (String × List Nat)) :
    (unpack_files build calcSize compressIf dir fs out).2 =
      out ++ (fs.takeWhile (fun g => ! isErrB (build g))).map
        (fun g => (dir ++ "/" ++ g, compressIf (dir ++ "/" ++ g) (buildData build g))) := by
  induction fs generalizing out with
  | nil => simp [unpack_files]
  | cons f rest ih =>
    cases hb : build f with
    | error e =>
      rw [unpack_files]
      simp only [hb]
      rw [List.takeWhile_cons, show (! isErrB (build f)) = false from by simp [isErrB, hb]]
      simp
    | ok data =>
      have hdata : buildData build f = data := by rw [buildData, hb]
      have ih2 := ih (out ++ [(dir ++ "/" ++ f, compressIf (dir ++ "/" ++ f) data)])
      rw [List.takeWhile_cons, show (! isErrB (build f)) = true from by simp [isErrB, hb],
        if_pos rfl, List.map_cons, hdata]
      cases hrec : unpack_files build calcSize compressIf dir rest
          (out ++ [(dir ++ "/" ++ f, compressIf (dir ++ "/" ++ f) data)]) with
      | mk res outF =>
        rw [hrec] at ih2
        simp only at ih2
        rw [unpack_files]
        simp only [hb, hrec]
        cases res with
        | ok sizes =>
          simp only []
          rw [ih2]
          simp
        | error e =>
          simp only []
          rw [ih2]
          simp

theorem unpack_files_err (build : String → Except String (List Nat))
    (calcSize : String → List Nat → Option Nat)
    (compressIf : String → List Nat → List Nat) (dir : String)
    (fs : List String) (out : List (String × List Nat))
    (h : ∃ f ∈ fs, isErrB (build f) = true) :
    isErrB (unpack_files build calcSize compressIf dir fs out).1 = true := by
  induction fs generalizing out with
  | nil => simp at h
  | cons f rest ih =>
    cases hb : build f with
    | error e =>
      rw [unpack_files]
      simp only [hb]
      rfl
    | ok data =>
      have hr : ∃ g ∈ rest, isErrB (build g) = true := by
        rcases h with ⟨g, hg, hge⟩
        rcases List.mem_cons.1 hg with hg1 | hg2
        · rw [hg1, hb] at hge
          simp [isErrB] at hge
        · exact ⟨g, hg2, hge⟩
      rw [unpack_files]
      simp only [hb]
      cases hrec : unpack_files build calcSize compressIf dir rest
          (out ++ [(dir ++ "/" ++ f, compressIf (dir ++ "/" ++ f) data)]) with
      | mk res outF =>
        have := ih (out ++ [(dir ++ "/" ++ f, compressIf (dir ++ "/" ++ f) data)]) hr
        rw [hrec] at this
        simp only at this
        cases res with
        | ok sizes => simp [isErrB] at this
        | error e => rfl

theorem unpack_files_ok (build : String → Except String (List Nat))
    (calcSize : String → List Nat → Option Nat)
    (compressIf : String → List Nat → List Nat) (dir : String)
    (fs : List String) (out : List (String × List Nat))
    (h : ∀ f ∈ fs, isErrB (build f) = false) :
    isErrB (unpack_files build calcSize compressIf dir fs out).1 = false := by
  induction fs generalizing out with
  | nil => rfl
  | cons f rest ih =>
    cases hb : build f with
    | error e =>
      have := h f (List.mem_cons_self _ _)
      rw [hb] at this
      simp [isErrB] at this
    | ok data =>
      rw [unpack_files]
      simp only [hb]
      cases hrec : unpack_files build calcSize compressIf dir rest
          (out ++ [(dir ++ "/" ++ f, compressIf (dir ++ "/" ++ f) data)]) with
      | mk res outF =>
        have := ih (out ++ [(dir ++ "/" ++ f, compressIf (dir ++ "/" ++ f) data)])
          (fun g hg => h g (List.mem_cons_of_mem _ hg))
        rw [hrec] at this
        simp only at this
        cases res with
        | ok sizes => rfl
        | error e => simp [isErrB] at this

/-- C5 (amended): if building any file fails, `ModUnpacker::unpack` returns
an error — but partial outputs are already committed: each file is written
to the final output directory as soon as its own build succeeds, so every
content file built before the first failure (and, when the content phase
succeeds, every file written before a failing add-on file) remains in the
output tree.  The claim that no manifest file is present unless every build
succeeded is refuted by `C5_unpack_partial_output_counterexample`. -/
theorem C5_unpack_error_keeps_partial_outputs
    (build : String → Except String (List Nat))
    (calcSize : String → List Nat → Option Nat)
    (compressIf : String → List Nat → List Nat)
    (contentDir aocDir : String) (content_files aoc_files : List String)
    (hfail : ∃ f ∈ content_files ++ aoc_files, isErrB (build f) = true) :
    isErrB (ModUnpacker.unpack build calcSize compressIf contentDir aocDir
      content_files aoc_files).1 = true ∧
    (∀ f ∈ content_files.takeWhile (fun g => ! isErrB (build g)),
      (contentDir ++ "/" ++ f) ∈
        alKeys (ModUnpacker.unpack build calcSize compressIf contentDir aocDir
          content_files aoc_files).2) := by
  have hout1 := unpack_files_out build calcSize compressIf contentDir content_files []
  rcases hrec1 : unpack_files build calcSize compressIf contentDir content_files []
    with ⟨res1, out1⟩
  rw [hrec1] at hout1
  simp only at hout1
  have hkey : ∀ f ∈ content_files.takeWhile (fun g => ! isErrB (build g)),
      (contentDir ++ "/" ++ f) ∈ alKeys out1 := by
    intro f hf
    rw [hout1, List.nil_append, alKeys, List.map_map]
    exact List.mem_map.2 ⟨f, hf, rfl⟩
  cases res1 with
  | error e =>
    have hun : ModUnpacker.unpack build calcSize compressIf contentDir aocDir
        content_files aoc_files = (Except.error e, out1) := by
      simp only [ModUnpacker.unpack, hrec1]
    rw [hun]
    exact ⟨rfl, hkey⟩
  | ok sizes1 =>
    rcases hrec2 : unpack_files build calcSize compressIf aocDir aoc_files out1
      with ⟨res2, out2⟩
    have hout2 := unpack_files_out build calcSize compressIf aocDir aoc_files out1
    rw [hrec2] at hout2
    simp only at hout2
    have hkey2 : ∀ f ∈ content_files.takeWhile (fun g => ! isErrB (build g)),
        (contentDir ++ "/" ++ f) ∈ alKeys out2 := by
      intro f hf
      rw [hout2, alKeys_append, List.mem_append]
      left
      exact hkey f hf
    have herr2 : isErrB res2 = true := by
      by_cases hc : ∃ f ∈ content_files, isErrB (build f) = true
      · have h1 := unpack_files_err build calcSize compressIf contentDir content_files [] hc
        rw [hrec1] at h1
        simp [isErrB] at h1
      · push_neg at hc
        have hcok : ∀ f ∈ content_files, isErrB (build f) = false := by
          intro f hf
          exact Bool.eq_false_iff.2 (hc f hf)
        have haocfail : ∃ f ∈ aoc_files, isErrB (build f) = true := by
          rcases hfail with ⟨f, hf, hfe⟩
          rcases List.mem_append.1 hf with hf1 | hf2
          · rw [hcok f hf1] at hfe
            exact absurd hfe (by simp)
          · exact ⟨f, hf2, hfe⟩
        have h2 := unpack_files_err build calcSize compressIf aocDir aoc_files out1 haocfail
        rw [hrec2] at h2
        exact h2
    cases res2 with
    | error e =>
      have hun : ModUnpacker.unpack build calcSize compressIf contentDir aocDir
          content_files aoc_files = (Except.error e, out2) := by
        simp only [ModUnpacker.unpack, hrec1, hrec2]
      rw [hun]
      exact ⟨rfl, hkey2⟩
    | ok sizes2 => simp [isErrB] at herr2

/-- Concrete build function for the C5 witness and counterexample: file A
builds to one byte, every other file fails. -/
def c5build : String → Except String (List Nat) :=
  fun g => if g = "A" then .ok [1] else .error "boom"

theorem C5_unpack_error_keeps_partial_outputs_witness :
    (∃ f ∈ (["A", "B"] : List String) ++ ([] : List String), isErrB (c5build f) = true) ∧
    (isErrB (ModUnpacker.unpack c5build (fun _ _ => none) (fun _ d => d)
        "content" "aoc" ["A", "B"] []).1 = true ∧
      (∀ f ∈ (["A", "B"] : List String).takeWhile (fun g => ! isErrB (c5build g)),
        ("content" ++ "/" ++ f) ∈
          alKeys (ModUnpacker.unpack c5build (fun _ _ => none) (fun _ d => d)
            "content" "aoc" ["A", "B"] []).2)) :=
  ⟨by decide,
    C5_unpack_error_keeps_partial_outputs c5build (fun _ _ => none) (fun _ d => d)
      "content" "aoc" ["A", "B"] [] (by decide)⟩

/-- C5 (counterexample): with two content files where the first builds and
the second fails, the run returns an error but the first file has already
been committed to the output tree, so a manifest path is present although
not every file's build succeeded. -/
theorem C5_unpack_partial_output_counterexample :
    isErrB (ModUnpacker.unpack c5build (fun _ _ => none) (fun _ d => d)
        "content" "aoc" ["A", "B"] []).1 = true ∧
      ("content/A") ∈
        alKeys (ModUnpacker.unpack c5build (fun _ _ => none) (fun _ d => d)
          "content" "aoc" ["A", "B"] []).2 := by
  decide

/-
## `ModUnpacker::build_file` (unpack.rs lines 408-464)
-/

/-- The dump's version of a file (unpack.rs lines 412-418):
`self.dump.get_data(file).or_else(|_| self.dump.get_resource(file))`, the two
channels modelled as already-parsed optional resources. -/
def dumpVersion (dumpData dumpRes : String → Option ResourceData)
    (file : String) : Option ResourceData :=
  (dumpData file).orElse (fun _ => dumpRes file)

/-- Per-mod raw payloads for a canonical path (unpack.rs lines 419-423):
`mod_.get_data(file).ok()` over the reader list in priority order, skipping
mods that do not provide the file. -/
def modDatas (mods : List (String → Option (List Nat))) (file : String) :
    List (List Nat) :=
  mods.filterMap (fun m => m file)

/-- The mod-version loop of `build_file` (unpack.rs lines 419-427): each
payload is deserialised (`minicbor_ser::from_slice`, modelled by `parseRes`)
and pushed in order; the first parse failure aborts the whole call through
`?`. -/
def parseVersions (parseRes : List Nat → Option ResourceData) :
    List (List Nat) → Except String (List ResourceData)
  | [] => .ok []
  | d :: rest =>
    match parseRes d with
    | none => .error "Failed to parse mod resource"
    | some r =>
      match parseVersions parseRes rest with
      | .error e => .error e
      | .ok rs => .ok (r :: rs)

/-- `VecDeque::pop_back().unwrap_or(d)`: the last element of a list, or the
fallback when it is empty. -/
def lastD {α : Type} (d : α) : List α → α
  | [] => d
  | x :: xs => lastD x xs

/-- Modelled from the spec: `SarcMap::merge` is not among these sources; the
spec describes SARC merge as set-union over child canonical paths, realised
here as the base's children in order followed by the patch's unseen children
in order. -/
def sarcMerge (base other : List String) : List String :=
  base ++ other.filter (fun f => ! base.contains f)

/-- Dispatch of `build_file` on the base version (unpack.rs lines 428-462)
once the deque is assembled: an empty deque is the "no base version" error
(line 430); a Binary base takes the popped back — the last writer — or the
base itself when no other version exists, and panics (`none`) if that
version is not binary (`take_binary().unwrap()`); a Mergeable base folds
`merge_plist` over the remaining versions, skipping non-mergeable ones, and
serialises with `serM` (`into_binary`); a Sarc base folds the child-path
union and delegates to `buildSarc` (`build_sarc`, passed as a parameter
because it recurses into `build_file` over dynamic child paths). -/
def buildFromVersions (serM : ParameterList → List Nat)
    (buildSarc : List String → Except String (List Nat)) :
    List ResourceData → Option (Except String (List Nat))
  | [] => some (.error "No base version for file")
  | base :: rest =>
    match base with
    | .binary _ =>
      match lastD base rest with
      | .binary d => some (.ok d)
      | _ => none
    | .mergeable m =>
      some (.ok (serM (rest.foldl (fun acc v =>
        match v with
        | ResourceData.mergeable p => merge_plist acc p
        | _ => acc) m)))
    | .sarc s =>
      some (buildSarc (rest.foldl (fun acc v =>
        match v with
        | ResourceData.sarc p => sarcMerge acc p
        | _ => acc) s))

/-- Embedding of `ModUnpacker::build_file` (unpack.rs lines 408-464): the
version deque is the dump's version (when it has one) followed by every
mod's parsed payload in priority order; the front is popped as the base and
the rest overlay it.  `none` models a Rust panic, `some (.error e)` a
returned `Err`. -/
def build_file (dumpData dumpRes : String → Option ResourceData)
    (mods : List (String → Option (List Nat)))
    (parseRes : List Nat → Option ResourceData)
    (serM : ParameterList → List Nat)
    (buildSarc : List String → Except String (List Nat))
    (file : String) : Option (Except String (List Nat)) :=
  match parseVersions parseRes (modDatas mods file) with
  | .error e => some (.error e)
  | .ok modVers =>
    buildFromVersions serM buildSarc
      ((match dumpVersion dumpData dumpRes file with
        | some r => [r]
        | none => []) ++ modVers)

/-- Total extraction of a parsed resource, defaulting to an empty binary;
only ever applied where the option is known to be `some`. -/
def extRes (o : Option ResourceData) : ResourceData :=
  o.getD (ResourceData.binary [])

/-- Whether an optional parse result is a Binary resource. -/
def isBinRes : Option ResourceData → Bool
  | some (ResourceData.binary _) => true
  | _ => false

theorem isBinRes_isSome {o : Option ResourceData} (h : isBinRes o = true) :
    o.isSome = true := by
  cases o with
  | none => simp [isBinRes] at h
  | some r => rfl

theorem isBinRes_elim {o : Option ResourceData} (h : isBinRes o = true) :
    ∃ b, o = some (ResourceData.binary b) := by
  match o with
  | some (ResourceData.binary b) => exact ⟨b, rfl⟩
  | some (ResourceData.mergeable _) => simp [isBinRes] at h
  | some (ResourceData.sarc _) => simp [isBinRes] at h
  | none => simp [isBinRes] at h

theorem parseVersions_ok (parseRes : List Nat → Option ResourceData) :
    (ds : List (List Nat)) → (∀ d ∈ ds, (parseRes d).isSome = true) →
    parseVersions parseRes ds = .ok (ds.map (fun d => extRes (parseRes d)))
  | [], _ => rfl
  | d :: ds, h => by
    have hd : (parseRes d).isSome = true := h d (List.mem_cons_self d ds)
    obtain ⟨r, hr⟩ := Option.isSome_iff_exists.mp hd
    have ih := parseVersions_ok parseRes ds (fun x hx => h x (List.mem_cons_of_mem d hx))
    rw [parseVersions]
    simp [hr, ih, extRes]

theorem lastD_cons {α : Type} (d x : α) (xs : List α) :
    lastD d (x :: xs) = lastD x xs := rfl

theorem lastD_map {α β : Type} (f : α → β) : (d : α) → (l : List α) →
    lastD (f d) (l.map f) = f (lastD d l)
  | _, [] => rfl
  | _, x :: xs => lastD_map f x xs

theorem buildFromVersions_binary (serM : ParameterList → List Nat)
    (buildSarc : List String → Except String (List Nat))
    (b : List Nat) (rest : List ResourceData) (d : List Nat)
    (h : lastD (ResourceData.binary b) rest = ResourceData.binary d) :
    buildFromVersions serM buildSarc (ResourceData.binary b :: rest) =
      some (Except.ok d) := by
  simp only [buildFromVersions]
  rw [h]

/-- C6: for a file whose mod payloads all parse to Binary resources,
`build_file` returns the dump's bytes when no mod provides the file, and
the highest-priority (last) mod's bytes when at least one mod does —
including when the dump has no version of the file at all. -/
theorem C6_binary_last_writer_wins
    (dumpData dumpRes : String → Option ResourceData)
    (mods : List (String → Option (List Nat)))
    (parseRes : List Nat → Option ResourceData)
    (serM : ParameterList → List Nat)
    (buildSarc : List String → Except String (List Nat))
    (file : String)
    (hparse : ∀ d ∈ modDatas mods file, isBinRes (parseRes d) = true) :
    (∀ bb, dumpVersion dumpData dumpRes file = some (ResourceData.binary bb) →
      modDatas mods file = [] →
      build_file dumpData dumpRes mods parseRes serM buildSarc file =
        some (Except.ok bb)) ∧
    (∀ bb d ds bLast,
      dumpVersion dumpData dumpRes file = some (ResourceData.binary bb) →
      modDatas mods file = d :: ds →
      parseRes (lastD d ds) = some (ResourceData.binary bLast) →
      build_file dumpData dumpRes mods parseRes serM buildSarc file =
        some (Except.ok bLast)) ∧
    (∀ d ds bLast,
      dumpVersion dumpData dumpRes file = none →
      modDatas mods file = d :: ds →
      parseRes (lastD d ds) = some (ResourceData.binary bLast) →
      build_file dumpData dumpRes mods parseRes serM buildSarc file =
        some (Except.ok bLast)) := by
  have hPV : parseVersions parseRes (modDatas mods file) =
      .ok ((modDatas mods file).map (fun q => extRes (parseRes q))) :=
    parseVersions_ok parseRes _ (fun x hx => isBinRes_isSome (hparse x hx))
  refine ⟨?_, ?_, ?_⟩
  · intro bb hdump hmods
    have hPV2 := hPV
    rw [hmods] at hPV2
    simp only [build_file, hmods, hPV2, hdump, List.map_nil, List.append_nil]
    exact buildFromVersions_binary serM buildSarc bb [] bb rfl
  · intro bb d ds bLast hdump hmods hlast
    have hl : lastD (ResourceData.binary bb)
        (extRes (parseRes d) :: List.map (fun q => extRes (parseRes q)) ds) =
        ResourceData.binary bLast := by
      show lastD (extRes (parseRes d))
        (List.map (fun q => extRes (parseRes q)) ds) = ResourceData.binary bLast
      exact (lastD_map (fun q => extRes (parseRes q)) d ds).trans (by rw [hlast]; rfl)
    have hPV2 := hPV
    rw [hmods] at hPV2
    simp only [build_file, hmods, hPV2, hdump, List.map_cons,
      List.singleton_append]
    exact buildFromVersions_binary serM buildSarc bb _ bLast hl
  · intro d ds bLast hdump hmods hlast
    have hmem : d ∈ modDatas mods file := by
      rw [hmods]; exact List.mem_cons_self d ds
    obtain ⟨b0, hb0⟩ := isBinRes_elim (hparse d hmem)
    have hbase : extRes (parseRes d) = ResourceData.binary b0 := by
      rw [hb0]; rfl
    have hl : lastD (ResourceData.binary b0)
        (List.map (fun q => extRes (parseRes q)) ds) =
        ResourceData.binary bLast := by
      rw [← hbase]
      exact (lastD_map (fun q => extRes (parseRes q)) d ds).trans (by rw [hlast]; rfl)
    have hPV2 := hPV
    rw [hmods] at hPV2
    simp only [build_file, hmods, hPV2, hdump, List.map_cons, List.nil_append]
    rw [hbase]
    exact buildFromVersions_binary serM buildSarc b0 _ bLast hl

/-- Concrete dump for the C6 witness: every path resolves to the bytes
`[7]`. -/
def c6dump : String → Option ResourceData :=
  fun _ => some (ResourceData.binary [7])

/-- Concrete mod list for the C6 witness: two mods providing `[1]` and `[2]`
respectively for every path. -/
def c6mods : List (String → Option (List Nat)) :=
  [fun _ => some [1], fun _ => some [2]]

/-- Concrete parser for the C6 witness: every payload parses to itself as a
Binary resource. -/
def c6parse : List Nat → Option ResourceData :=
  fun d => some (ResourceData.binary d)

theorem C6_binary_last_writer_wins_witness :
    build_file c6dump (fun _ => none) c6mods c6parse (fun _ => [])
      (fun _ => Except.error "") "f" = some (Except.ok [2]) :=
  (C6_binary_last_writer_wins c6dump (fun _ => none) c6mods c6parse
      (fun _ => []) (fun _ => Except.error "") "f" (by decide)).2.1
    [7] [1] [[2]] [2] (by decide) (by decide) (by decide)

/-- C10: when neither dump channel holds a version of a path and no mod in
the reader list provides data for it, `build_file` returns the "no base
version" error, and in particular never fabricates output bytes. -/
theorem C10_build_file_errors_without_any_version
    (dumpData dumpRes : String → Option ResourceData)
    (mods : List (String → Option (List Nat)))
    (parseRes : List Nat → Option ResourceData)
    (serM : ParameterList → List Nat)
    (buildSarc : List String → Except String (List Nat))
    (file : String)
    (hdata : dumpData file = none) (hres : dumpRes file = none)
    (hmods : modDatas mods file = []) :
    build_file dumpData dumpRes mods parseRes serM buildSarc file =
      some (Except.error "No base version for file") ∧
    ∀ b, build_file dumpData dumpRes mods parseRes serM buildSarc file ≠
      some (Except.ok b) := by
  have hdv : dumpVersion dumpData dumpRes file = none := by
    unfold dumpVersion
    rw [hdata, hres]
    rfl
  have hmain : build_file dumpData dumpRes mods parseRes serM buildSarc file =
      some (Except.error "No base version for file") := by
    simp only [build_file, hmods, hdv]
    rfl
  refine ⟨hmain, fun b hc => ?_⟩
  rw [hmain] at hc
  exact Except.noConfusion (Option.some.inj hc)

theorem C10_build_file_errors_without_any_version_witness :
    build_file (fun _ => none) (fun _ => none) [] (fun _ => none)
      (fun _ => []) (fun _ => Except.error "") "f" =
      some (Except.error "No base version for file") :=
  (C10_build_file_errors_without_any_version (fun _ => none) (fun _ => none)
    [] (fun _ => none) (fun _ => []) (fun _ => Except.error "") "f"
    rfl rfl rfl).1

/-
## `AIEntry` / `ActionEntry` (uk-content/src/actor/aiprog.rs)
-/

/-- Action entry of an AI program (aiprog.rs lines 136-141): a definition
object, optional `SInst` parameters and an optional behaviors map. -/
structure ActionEntry where
  defn : ParameterObject
  params : Option ParameterObject
  behaviors : Option (List (Nat × ParameterList))
deriving DecidableEq

/-- The `def`-object diff shared by `AIEntry::diff` and `ActionEntry::diff`
(aiprog.rs lines 27-38 and 155-166): when the two objects differ, clone
`self`'s and extend it with every binding of `other` that is absent from or
changed in `self`; otherwise just clone `self`'s. -/
def defDiff (s o : ParameterObject) : ParameterObject :=
  if s ≠ o then
    (o.filter (fun kv => decide (alGet s kv.1 ≠ some kv.2))).foldl
      (fun acc kv => alInsert acc kv.1 kv.2) s
  else s

/-- The optional-`params` diff shared by the two entry kinds (aiprog.rs
lines 39-48 and 167-176): left at the default `none` when the two sides are
equal, otherwise `diff_pobj` under `some` when `self` has parameters, or
`other`'s clone when it does not. -/
def paramsDiff (s o : Option ParameterObject) : Option ParameterObject :=
  if s ≠ o then
    match s with
    | some sp => o.map (fun p => diff_pobj sp p)
    | none => o
  else none

/-- The optional-behaviors diff shared by the two entry kinds (aiprog.rs
lines 49-68 and 177-196): left at the default `none` when equal, otherwise
driven by `other`'s entries — kept whole when the key is absent in `self`,
diffed with `diff_plist` when bound to a different value, dropped when
equal. -/
def behaviorsDiff (s o : Option (List (Nat × ParameterList))) :
    Option (List (Nat × ParameterList)) :=
  if s ≠ o then
    match s with
    | some sb => o.map (fun ob => ob.filterMap (fun kv =>
        match alGet sb kv.1 with
        | none => some kv
        | some v => if v ≠ kv.2 then some (kv.1, diff_plist v kv.2) else none))
    | none => o
  else none

/-- The optional-`params` merge shared by the two entry kinds (aiprog.rs
lines 99-105 and 204-210): `merge_pobj` when both sides have parameters, the
diff's clone when only the diff does, the base's otherwise. -/
def paramsMerge (b d : Option ParameterObject) : Option ParameterObject :=
  match d with
  | some dp =>
    match b with
    | some bp => some (merge_pobj bp dp)
    | none => some dp
  | none => b

/-- The optional-behaviors merge shared by the two entry kinds (aiprog.rs
lines 106-118 and 211-223): chain the base's entries then the diff's and
collect into a fresh map, so diff values overwrite shared keys in place and
fresh diff keys are appended. -/
def behaviorsMerge (b d : Option (List (Nat × ParameterList))) :
    Option (List (Nat × ParameterList)) :=
  match d with
  | some db =>
    match b with
    | some bb => some (alCollect (bb ++ db))
    | none => some db
  | none => b

/-- Embedding of `ActionEntry::diff` (aiprog.rs lines 152-198). -/
def ActionEntry.diff (s o : ActionEntry) : ActionEntry :=
  { defn := defDiff s.defn o.defn
    params := paramsDiff s.params o.params
    behaviors := behaviorsDiff s.behaviors o.behaviors }

/-- Embedding of `ActionEntry::merge` (aiprog.rs lines 200-225): the clone
of `base` with the diff's definition object and the merged optional
components. -/
def ActionEntry.merge (base diff : ActionEntry) : ActionEntry :=
  { defn := diff.defn
    params := paramsMerge base.params diff.params
    behaviors := behaviorsMerge base.behaviors diff.behaviors }

mutual
/-- AI entry of an AI program (aiprog.rs lines 7-13): a definition object,
optional `SInst` parameters, an ordered map of children keyed by `u32`
slots, and an optional behaviors map. -/
inductive AIEntry : Type where
  | mk (defn : ParameterObject) (params : Option ParameterObject)
      (children : ChildMap)
      (behaviors : Option (List (Nat × ParameterList))) : AIEntry
deriving DecidableEq
/-- Ordered map from `u32` child slots to child entries
(`IndexMap<u32, ChildEntry>`), spelled out so the mutual recursion with
`AIEntry` stays structural. -/
inductive ChildMap : Type where
  | nil : ChildMap
  | cons (k : Nat) (v : ChildEntry) (rest : ChildMap) : ChildMap
deriving DecidableEq
/-- A child of an AI entry (aiprog.rs lines 228-232): either a nested AI
entry or a leaf action. -/
inductive ChildEntry : Type where
  | AI (e : AIEntry) : ChildEntry
  | Action (a : ActionEntry) : ChildEntry
deriving DecidableEq
end

/-- Definition object of an AI entry. -/
def AIEntry.defn : AIEntry → ParameterObject
  | .mk d _ _ _ => d

/-- Optional parameters of an AI entry. -/
def AIEntry.params : AIEntry → Option ParameterObject
  | .mk _ p _ _ => p

/-- Child map of an AI entry. -/
def AIEntry.children : AIEntry → ChildMap
  | .mk _ _ c _ => c

/-- Optional behaviors of an AI entry. -/
def AIEntry.behaviors : AIEntry → Option (List (Nat × ParameterList))
  | .mk _ _ _ b => b

/-- Lookup in an ordered child map (`IndexMap` lookup). -/
def ChildMap.getV : ChildMap → Nat → Option ChildEntry
  | .nil, _ => none
  | .cons k v rest, q => if k = q then some v else rest.getV q

/-- In-place value replacement in a child map (`IndexMap::insert` on a
present key). -/
def ChildMap.setV : ChildMap → Nat → ChildEntry → ChildMap
  | .nil, _, _ => .nil
  | .cons k v rest, q, nv =>
    if k = q then .cons q nv rest else .cons k v (rest.setV q nv)

/-- Appending a fresh key at the end of a child map (`IndexMap::insert` on
an absent key). -/
def ChildMap.appendV : ChildMap → Nat → ChildEntry → ChildMap
  | .nil, q, nv => .cons q nv .nil
  | .cons k v rest, q, nv => .cons k v (rest.appendV q nv)

/-- `IndexMap::insert` on a child map: overwrite in place when the key
exists, append at the end otherwise. -/
def ChildMap.insertV (m : ChildMap) (k : Nat) (v : ChildEntry) : ChildMap :=
  if (m.getV k).isSome then m.setV k v else m.appendV k v

mutual
/-- Embedding of `AIEntry::diff` (aiprog.rs lines 25-93): the shared
component diffs plus the recursive child-map diff. -/
def AIEntry.diff (s o : AIEntry) : AIEntry :=
  match o with
  | .mk odef oparams ochildren obehaviors =>
    AIEntry.mk (defDiff s.defn odef) (paramsDiff s.params oparams)
      (diffChildren s.children ochildren)
      (behaviorsDiff s.behaviors obehaviors)

/-- Child-map component of `AIEntry::diff` (aiprog.rs lines 69-91): keep a
child of `other` whole when its slot is absent in `self` or the two kinds
disagree, recurse when both are AIs or both are actions, drop equal
children. -/
def diffChildren (sc : ChildMap) : ChildMap → ChildMap
  | .nil => .nil
  | .cons k v rest =>
    match sc.getV k with
    | none => .cons k v (diffChildren sc rest)
    | some sv =>
      if sv ≠ v then
        match sv, v with
        | .AI _, .Action _ => .cons k v (diffChildren sc rest)
        | .Action _, .AI _ => .cons k v (diffChildren sc rest)
        | .AI sa, .AI oa =>
          .cons k (.AI (AIEntry.diff sa oa)) (diffChildren sc rest)
        | .Action sa, .Action oa =>
          .cons k (.Action (ActionEntry.diff sa oa)) (diffChildren sc rest)
      else diffChildren sc rest
end

mutual
/-- Embedding of `AIEntry::merge` (aiprog.rs lines 96-133): the clone of
`base` with the diff's definition object, the merged optional components and
the child loop folded over the diff's children. -/
def AIEntry.merge (base diff : AIEntry) : AIEntry :=
  match diff with
  | .mk ddef dparams dchildren dbehaviors =>
    AIEntry.mk ddef (paramsMerge base.params dparams)
      (mergeChildren base.children base.children dchildren)
      (behaviorsMerge base.behaviors dbehaviors)

/-- Child loop of `AIEntry::merge` (aiprog.rs lines 119-131), walked over
the diff's children with the accumulator starting from the base's map:
fresh slots and kind-switched children are inserted, AI/AI pairs are merged
recursively (the source inserts the merged entry, which only type-checks
wrapped back in `ChildEntry::AI`) — and the Action/Action arm at line 126
has an empty body, so it inserts nothing and the base's action child is
kept verbatim. -/
def mergeChildren (bc : ChildMap) (acc : ChildMap) : ChildMap → ChildMap
  | .nil => acc
  | .cons k v rest =>
    match bc.getV k with
    | none => mergeChildren bc (acc.insertV k v) rest
    | some bv =>
      match bv, v with
      | .AI _, .Action _ => mergeChildren bc (acc.insertV k v) rest
      | .Action _, .AI _ => mergeChildren bc (acc.insertV k v) rest
      | .AI ba, .AI da =>
        mergeChildren bc (acc.insertV k (.AI (AIEntry.merge ba da))) rest
      | .Action _, .Action _ => mergeChildren bc acc rest
end

/-- First concrete action for C2: definition `Act`, parameter `1 ↦ 1`. -/
def c2act1 : ActionEntry :=
  { defn := [(0, Parameter.str "Act")]
    params := some [(1, Parameter.int 1)]
    behaviors := none }

/-- Second concrete action for C2: same definition, parameter `1 ↦ 2`. -/
def c2act2 : ActionEntry :=
  { defn := [(0, Parameter.str "Act")]
    params := some [(1, Parameter.int 2)]
    behaviors := none }

/-- Concrete base AI entry for C2: a single action child in slot 0. -/
def c2base : AIEntry :=
  AIEntry.mk [] none (ChildMap.cons 0 (ChildEntry.Action c2act1) ChildMap.nil)
    none

/-- Concrete other AI entry for C2: the same slot holds a different
action. -/
def c2other : AIEntry :=
  AIEntry.mk [] none (ChildMap.cons 0 (ChildEntry.Action c2act2) ChildMap.nil)
    none

/-- C2 (refuted on the shown input): when base and other both hold an Action
child in the same slot with different contents, `AIEntry::diff` does record
the action diff, but the empty Action/Action arm of `AIEntry::merge` (line
126 of aiprog.rs) discards it, so the reconstruction `merge(base,
diff(base, other))` keeps the base's action child and differs from
`other`. -/
theorem C2_action_child_merge_dropped :
    AIEntry.merge c2base (AIEntry.diff c2base c2other) ≠ c2other ∧
    (AIEntry.merge c2base (AIEntry.diff c2base c2other)).children.getV 0 =
      some (ChildEntry.Action c2act1) ∧
    c2other.children.getV 0 = some (ChildEntry.Action c2act2) ∧
    c2act1 ≠ c2act2 := by
  decide
